import Mathlib

/-!
Verification development for the element-hierarchy resolution and
namespace-composition engine of shr-json-javadoc.

The repository ships `export.js` (two revisions, identical in the parts
modelled here).  The component modules it relies on
(`components/elements.js`, `components/namespaces.js`) are not part of the
available sources, so their operations are modelled from the written
specification; every such definition carries a doc comment starting with
"Modelled from the spec:".  Definitions taken from `export.js` cite the
function they embed.
-/

/-- A field/constraint entry of a data element: a name, a type reference and
cardinality/constraint metadata (spec section 3). -/
structure ElementField where
  name : String
  typeRef : String
  card : String
deriving DecidableEq

/-- A data element as decoded from the canonical JSON, together with the
computed attributes written during loading and resolution
(`namespacePath`, `hierarchy`, `mergedFields`).  Spec section 3. -/
structure DataElement where
  fqn : String
  name : String
  namespaceName : String
  parentFqn : Option String
  fields : List ElementField
  description : String
  namespacePath : String
  hierarchy : List String
  mergedFields : List ElementField
deriving DecidableEq

/-- The fatal error taxonomy of spec section 7. -/
inductive ShrError where
  | duplicateFqn : String → ShrError
  | unresolvedParent : String → ShrError
  | cyclicHierarchy : String → ShrError
deriving DecidableEq

/-- A namespace: name, description, output path and the member fqns in
insertion order (spec section 3 and 4.3). -/
structure NamespaceInfo where
  name : String
  description : String
  path : String
  elements : List String
deriving DecidableEq

/-- The decoded JSON input consumed by `SHR.readFiles` in `export.js`:
a `namespaces` mapping (name to description, in key order) and an ordered
`dataElements` sequence. -/
structure Cimcore where
  namespaces : List (String × String)
  dataElements : List DataElement
deriving DecidableEq

/-- The resolved model: the Element Store and the Namespace Registry
(spec section 3, aggregate). -/
structure Model where
  elements : List DataElement
  namespaces : List NamespaceInfo
deriving DecidableEq

/-- The SHR object of `export.js`: the resolved model plus the mutable
`outDirectory` set by the constructor and overwritten by `exportToPath`. -/
structure SHR where
  outDirectory : String
  model : Model
deriving DecidableEq

/-- Embeds the defensive copy `JSON.parse(JSON.stringify(de))` of
`SHR.readFiles` (`export.js` line 94): on JSON-decoded data the
serialization roundtrip rebuilds every node of the value, yielding a
structurally equal tree that shares nothing with the input.  The clone is
written as an explicit structural rebuild of every component. -/
def deepClone (e : DataElement) : DataElement :=
  { fqn := e.fqn
    name := e.name
    namespaceName := e.namespaceName
    parentFqn := match e.parentFqn with
      | none => none
      | some p => some p
    fields := e.fields.map (fun f => { name := f.name, typeRef := f.typeRef, card := f.card })
    description := e.description
    namespacePath := e.namespacePath
    hierarchy := e.hierarchy.map (fun s => s)
    mergedFields := e.mergedFields.map (fun f => { name := f.name, typeRef := f.typeRef, card := f.card }) }

/-- Modelled from the spec: the Element Store keyed by fqn
(`components/elements.js` is not in the sources).  The store is the
insertion-ordered list of elements; lookup finds the element with the
given fqn. -/
def lookupElement (store : List DataElement) (f : String) : Option DataElement :=
  store.find? (fun e => e.fqn = f)

/-- Modelled from the spec: the upward walk of the parent chain of
`flatten` (spec section 4.2, `components/elements.js` is not in the
sources).  The walk resolves the parent by fqn lookup, failing with
`UnresolvedParentError` carrying the fqn of the element whose reference
dangles, accumulates visited fqns and fails with `CyclicHierarchyError`
when an fqn reappears.  `fuel` bounds the recursion; callers pass
`store.length + 1`, which the visited set never lets the walk exhaust. -/
def resolveChain (store : List DataElement) (fuel : Nat) (visited : List String)
    (cur : DataElement) : Except ShrError (List String) :=
  match fuel with
  | 0 => Except.error (ShrError.cyclicHierarchy cur.fqn)
  | fuel' + 1 =>
    match cur.parentFqn with
    | none => Except.ok []
    | some p =>
      if p ∈ visited then Except.error (ShrError.cyclicHierarchy p)
      else
        match lookupElement store p with
        | none => Except.error (ShrError.unresolvedParent cur.fqn)
        | some pe =>
          match resolveChain store fuel' (p :: visited) pe with
          | Except.ok h => Except.ok (p :: h)
          | Except.error err => Except.error err

/-- Modelled from the spec: one step of the stable field merge (spec
section 4.2 item 4).  A field whose name is already present overwrites the
existing entry in place; an unseen name is appended. -/
def applyField (table : List ElementField) (f : ElementField) : List ElementField :=
  if table.any (fun g => g.name = f.name) then
    table.map (fun g => if g.name = f.name then f else g)
  else table ++ [f]

/-- Modelled from the spec: apply the own fields of one element to the
accumulated merged table, in declaration order. -/
def applyFields (table : List ElementField) (fs : List ElementField) : List ElementField :=
  fs.foldl applyField table

/-- Modelled from the spec: the merged field table of a root-to-leaf chain
of elements — start from the own fields of the root ancestor and apply
each descendant in root-to-leaf order (spec section 4.2 item 4). -/
def mergedTable : List DataElement → List ElementField
  | [] => []
  | r :: rest => rest.foldl (fun t e => applyFields t e.fields) r.fields

/-- Modelled from the spec: the root-to-leaf element chain of an element
whose resolved hierarchy (nearest-first ancestor fqns) is `h`. -/
def rootToLeaf (store : List DataElement) (e : DataElement) (h : List String) :
    List DataElement :=
  (e :: h.filterMap (lookupElement store)).reverse

/-- Modelled from the spec: resolution of a single element — walk the
parent chain, then store the hierarchy and the merged field table on the
element (spec section 4.2). -/
def resolveElement (store : List DataElement) (e : DataElement) :
    Except ShrError DataElement :=
  match resolveChain store (store.length + 1) [e.fqn] e with
  | Except.error err => Except.error err
  | Except.ok h =>
      Except.ok { e with hierarchy := h,
                         mergedFields := mergedTable (rootToLeaf store e h) }

/-- Total companion of `resolveElement`: on a walk failure it returns the
element unchanged.  Used only in proofs to describe the successful
`flatten` output as a map. -/
def resolveOk (store : List DataElement) (e : DataElement) : DataElement :=
  match resolveChain store (store.length + 1) [e.fqn] e with
  | Except.error _ => e
  | Except.ok h =>
      { e with hierarchy := h,
               mergedFields := mergedTable (rootToLeaf store e h) }

/-- Sequential error-propagating map: embeds a `for` loop whose body can
throw, aborting at the first failure. -/
def mapExcept (f : α → Except ShrError β) : List α → Except ShrError (List β)
  | [] => Except.ok []
  | a :: l =>
    match f a with
    | Except.error e => Except.error e
    | Except.ok b =>
      match mapExcept f l with
      | Except.error e => Except.error e
      | Except.ok bs => Except.ok (b :: bs)

/-- Modelled from the spec: `flatten()` of the Element Store — resolve
every element, aborting on the first fatal error (spec section 4.2;
called from the `SHR` constructor, `export.js` line 77). -/
def flatten (store : List DataElement) : Except ShrError (List DataElement) :=
  mapExcept (resolveElement store) store

/-- Modelled from the spec: the output path of a namespace — the name with
every dot turned into a path separator (spec section 3;
`components/namespaces.js` is not in the sources). -/
def nsPath (n : String) : String :=
  String.mk (n.data.map (fun c => if c = '.' then '/' else c))

/-- Modelled from the spec: lookup in the Namespace Registry by name. -/
def findNamespace (reg : List NamespaceInfo) (n : String) : Option NamespaceInfo :=
  reg.find? (fun x => x.name = n)

/-- Modelled from the spec: `get(name)` of the Namespace Registry — return
the existing namespace or lazily create and register a new one (spec
section 4.3).  Returns the updated registry together with the namespace. -/
def getNamespace (reg : List NamespaceInfo) (n : String) :
    List NamespaceInfo × NamespaceInfo :=
  match findNamespace reg n with
  | some ns => (reg, ns)
  | none =>
      let ns : NamespaceInfo :=
        { name := n, description := "", path := nsPath n, elements := [] }
      (reg ++ [ns], ns)

/-- Modelled from the spec: set the description of a namespace, creating it
lazily first (the description ingestion pass of `SHR.readFiles`,
`export.js` lines 88 to 91). -/
def setNsDescription (reg : List NamespaceInfo) (n d : String) : List NamespaceInfo :=
  ((getNamespace reg n).1).map
    (fun x => if x.name = n then { x with description := d } else x)

/-- Modelled from the spec: `addElement` — append a member fqn to the list
of the named namespace (spec section 4.3). -/
def addNsElement (reg : List NamespaceInfo) (n f : String) : List NamespaceInfo :=
  reg.map (fun x => if x.name = n then { x with elements := x.elements ++ [f] } else x)

/-- One iteration of the data-element loop of `SHR.readFiles` (`export.js`
lines 93 to 100): deep-copy the entry, insert into the Element Store
(failing with `DuplicateFqnError` on an already present fqn, per spec
section 4.1 — the store insert itself is modelled from the spec since
`components/elements.js` is not in the sources), fetch the owning
namespace lazily, append the element to its member list and set the
namespacePath of the element. -/
def loadElement (st : List DataElement × List NamespaceInfo) (de : DataElement) :
    Except ShrError (List DataElement × List NamespaceInfo) :=
  let deClone := deepClone de
  if st.1.any (fun e => e.fqn = deClone.fqn) then
    Except.error (ShrError.duplicateFqn deClone.fqn)
  else
    let pair := getNamespace st.2 deClone.namespaceName
    let el := { deClone with namespacePath := pair.2.path }
    Except.ok (st.1 ++ [el], addNsElement pair.1 deClone.namespaceName deClone.fqn)

/-- The data-element loop of `SHR.readFiles`, aborting on the first
`DuplicateFqnError`. -/
def loadAll (st : List DataElement × List NamespaceInfo) :
    List DataElement → Except ShrError (List DataElement × List NamespaceInfo)
  | [] => Except.ok st
  | de :: rest =>
    match loadElement st de with
    | Except.error e => Except.error e
    | Except.ok st' => loadAll st' rest

/-- `SHR.readFiles` (`export.js` lines 85 to 101): ingest the namespace
descriptions, then the data elements in sequence order. -/
def readFiles (c : Cimcore) :
    Except ShrError (List DataElement × List NamespaceInfo) :=
  let reg₀ := c.namespaces.foldl (fun reg nd => setNsDescription reg nd.1 nd.2) []
  loadAll ([], reg₀) c.dataElements

/-- The `SHR` constructor body (`export.js` lines 70 to 78): read the
input, then flatten the Element Store; any fatal error aborts the run
before a model exists. -/
def resolveModel (c : Cimcore) : Except ShrError Model :=
  match readFiles c with
  | Except.error e => Except.error e
  | Except.ok st =>
    match flatten st.1 with
    | Except.error e => Except.error e
    | Except.ok store' => Except.ok { elements := store', namespaces := st.2 }

/-- Modelled from the spec: `list()` of the Element Store — all elements in
insertion order, the deterministic order picked once and held across runs
(spec section 4.4). -/
def listElements (m : Model) : List DataElement := m.elements

/-- Modelled from the spec: `list()` of the Namespace Registry — all
namespaces in their stable registration order (spec section 4.3). -/
def listNamespaces (m : Model) : List NamespaceInfo := m.namespaces

/-- `compileJavadoc` (`export.js` lines 24 to 27): build the SHR object for
the given output path. -/
def compileJavadoc (c : Cimcore) (outPath : String) : Except ShrError SHR :=
  match resolveModel c with
  | Except.error e => Except.error e
  | Except.ok m => Except.ok { outDirectory := outPath, model := m }

-- Member sorting for package pages (`SHR.buildPackageFiles`).

/-- Modelled from the spec: the display name used as the sort key of the
member sort of `buildPackageFiles` — the simple name of the element (the
string conversion of an element is not in the sources; the spec names the
operation sort-by-display-name). -/
def displayName (e : DataElement) : String := e.name

/-- Lexicographic comparison of two character sequences by numeric
character code, as the comparator-less `Array.prototype.sort()` compares
the string conversions of its elements. -/
def charListLt : List Char → List Char → Bool
  | _, [] => false
  | [], _ :: _ => true
  | a :: as, b :: bs =>
    if a.toNat < b.toNat then true
    else if b.toNat < a.toNat then false
    else charListLt as bs

/-- The string order of the default sort: code-point comparison. -/
def strLtB (a b : String) : Bool := charListLt a.data b.data

/-- The member order produced by the sort: `a` sorts no later than `b`
when `b` does not compare strictly below `a`. -/
def nameLeB (a b : DataElement) : Bool :=
  !(strLtB (displayName b) (displayName a))

/-- Stable insertion of an element into a list sorted by display name: the
element goes before the first entry with a strictly larger key, hence
after every earlier entry with an equal key.  Together with `sortMembers`
this embeds the default stable `Array.prototype.sort()` call of
`SHR.buildPackageFiles` (`export.js` line 132). -/
def insertByName (e : DataElement) : List DataElement → List DataElement
  | [] => [e]
  | x :: xs =>
    if strLtB (displayName x) (displayName e) then x :: insertByName e xs
    else e :: x :: xs

/-- The stable sort by display name applied to a member list by
`namespace.elements.sort()` in `SHR.buildPackageFiles` (`export.js` line
132). -/
def sortMembers : List DataElement → List DataElement
  | [] => []
  | e :: l => insertByName e (sortMembers l)

-- Heap model for the defensive copy (claim C7).

/-- A heap of element values addressed by numbers, modelling the object
references of the JavaScript run: distinct addresses are unrelated
objects, and mutation happens at a single address. -/
abbrev ElementHeap := List (Nat × DataElement)

/-- Read the value at an address. -/
def heapGet (h : ElementHeap) (a : Nat) : Option DataElement :=
  (List.find? (fun c => c.1 = a) h).map (fun c => c.2)

/-- The largest address in use. -/
def heapMax (h : ElementHeap) : Nat :=
  List.foldl (fun m c => max m c.1) 0 h

/-- Overwrite the value at an existing address. -/
def heapSet (h : ElementHeap) (a : Nat) (v : DataElement) : ElementHeap :=
  List.map (fun c => if c.1 = a then (a, v) else c) h

/-- Allocate a fresh address for a new value. -/
def heapAlloc (h : ElementHeap) (v : DataElement) : ElementHeap × Nat :=
  (h ++ [(heapMax h + 1, v)], heapMax h + 1)

/-- The data-element loop of `SHR.readFiles` seen through the heap: each
caller-owned entry (given by address) is deep-copied into a freshly
allocated object whose address the Element Store retains (`export.js`
lines 93 to 100).  Returns the grown heap and the store addresses. -/
def loadFromHeap (h : ElementHeap) : List Nat → ElementHeap × List Nat
  | [] => (h, [])
  | a :: rest =>
    match heapGet h a with
    | none => loadFromHeap h rest
    | some v =>
      let alloc := heapAlloc h (deepClone v)
      let tail := loadFromHeap alloc.1 rest
      (tail.1, alloc.2 :: tail.2)

/-- In-place mutation of the computed fields of stored elements, as
performed by `flatten()` and the namespacePath assignment: an arbitrary
sequence of element updates, each at one address. -/
def applyMutations (h : ElementHeap) :
    List (Nat × (DataElement → DataElement)) → ElementHeap
  | [] => h
  | m :: ms =>
    match heapGet h m.1 with
    | none => applyMutations h ms
    | some v => applyMutations (heapSet h m.1 (m.2 v)) ms

-- Output path generation (claim C10).

/-- Joining of an output directory and a relative file path, as done by
`path.join(outDirectory, filePath)` for plain relative segments. -/
def pathJoin (a b : String) : String := a ++ "/" ++ b

/-- The destination paths touched by `SHR.generateHTML` (`export.js` lines
181 to 190): the output directory itself (created by
`buildOutputDirectory` and targeted by the static-asset copy), the
per-namespace directories, the package, info and overview pages, and the
per-element pages — every one placed under `outDirectory`. -/
def generateHTML (shr : SHR) : List String :=
  let out := shr.outDirectory
  let nss := listNamespaces shr.model
  let els := listElements shr.model
  [out]
    ++ nss.map (fun ns => pathJoin out ns.path)
    ++ nss.map (fun ns => pathJoin out (pathJoin ns.path (ns.path ++ "-pkg.html")))
    ++ nss.map (fun ns => pathJoin out (pathJoin ns.path (ns.path ++ "-info.html")))
    ++ [pathJoin out "overview-frame.html",
        pathJoin out "overview-summary.html",
        pathJoin out "allclasses-frame.html"]
    ++ els.map (fun e => pathJoin out (pathJoin e.namespacePath (e.name ++ ".html")))

/-- `exportToPath` (`export.js` lines 29 to 33): overwrite `outDirectory`
with the given path, then generate the HTML output.  Returns the updated
SHR object and the generated destination paths. -/
def exportToPath (shr : SHR) (outPath : String) : SHR × List String :=
  let shr' := { shr with outDirectory := outPath }
  (shr', generateHTML shr')

-- Sanity checks on the end-to-end scenario of spec section 8.

-- Derived views of the merged field table (claim C2).

/-- The names of a field list, in order. -/
def fieldNames (l : List ElementField) : List String := l.map (fun f => f.name)

/-- One step of first-occurrence deduplication. -/
def dedupStep (acc : List String) (n : String) : List String :=
  if n ∈ acc then acc else acc ++ [n]

/-- First-occurrence deduplication of a name list: every name keeps the
position of its first occurrence. -/
def dedupKeepFirst (l : List String) : List String := l.foldl dedupStep []

/-- The entry of a field table carrying the given name (the first, and in a
duplicate-free table the only one). -/
def findByName (n : String) (l : List ElementField) : Option ElementField :=
  l.find? (fun f => f.name = n)

/-- The last declaration of a name in a declaration sequence — in
root-to-leaf order, the most specific one: the first hit when walking the
declarations from the leaf upward. -/
def lastDecl (n : String) (l : List ElementField) : Option ElementField :=
  l.reverse.find? (fun f => f.name = n)

/-- The own-field declarations of the whole ancestor chain of a resolved
element, concatenated in root-to-leaf order. -/
def chainDecls (store : List DataElement) (e : DataElement) : List ElementField :=
  ((rootToLeaf store e e.hierarchy).map (fun x => x.fields)).flatten

/-- Concrete root element used by witnesses: `onc.Tumor` with field `size`. -/
def tumorEl : DataElement :=
  { fqn := "onc.Tumor", name := "Tumor", namespaceName := "onc",
    parentFqn := none,
    fields := [{ name := "size", typeRef := "Quantity", card := "0..1" }],
    description := "a tumor", namespacePath := "", hierarchy := [],
    mergedFields := [] }

/-- Concrete child element used by witnesses: `onc.MalignantTumor`
extending `onc.Tumor` with field `grade`, re-declaring `size`. -/
def malignantEl : DataElement :=
  { fqn := "onc.MalignantTumor", name := "MalignantTumor",
    namespaceName := "onc", parentFqn := some "onc.Tumor",
    fields := [{ name := "grade", typeRef := "Code", card := "0..1" },
               { name := "size", typeRef := "BigQuantity", card := "1..1" }],
    description := "a malignant tumor", namespacePath := "", hierarchy := [],
    mergedFields := [] }

/-- The two-element demo store. -/
def demoStore : List DataElement := [tumorEl, malignantEl]

/-- The end-to-end demo input of spec section 8: namespace `onc` with the
two elements above. -/
def demoCimcore : Cimcore :=
  { namespaces := [("onc", "oncology")],
    dataElements := [tumorEl, malignantEl] }

/-- The duplicate-fqn demo input of spec section 8: `onc.Tumor` appears
twice in `dataElements`. -/
def demoDup : Cimcore :=
  { namespaces := [("onc", "oncology")],
    dataElements := [tumorEl, tumorEl] }

-- Decidable hypothesis encodings and demo stores for the error claims.

/-- A ranking certificate for an acyclic store: every resolvable parent
reference strictly decreases the rank. -/
def rankOkB (s : List DataElement) (rank : String → Nat) : Bool :=
  s.all (fun e =>
    match e.parentFqn with
    | none => true
    | some p =>
      match lookupElement s p with
      | none => true
      | some pe => decide (rank pe.fqn < rank e.fqn))

/-- Every parent reference in the store resolves (no dangling parents). -/
def noDanglingB (s : List DataElement) : Bool :=
  s.all (fun e =>
    match e.parentFqn with
    | none => true
    | some p => (lookupElement s p).isSome)

/-- A nonempty fqn set closed under the parent step — the vertex set of a
cycle of the parent-chain graph (for the two-cycle X parent Y, Y parent X
this is the list of the two fqns). -/
def parentClosedB (s : List DataElement) (c : List String) : Bool :=
  decide (c ≠ []) && c.all (fun f =>
    match lookupElement s f with
    | none => false
    | some e =>
      match e.parentFqn with
      | none => false
      | some g => decide (g ∈ c))

/-- An element whose declared parent fqn is absent from the store. -/
def danglingEl : DataElement :=
  { fqn := "onc.Bad", name := "Bad", namespaceName := "onc",
    parentFqn := some "onc.Missing", fields := [], description := "",
    namespacePath := "", hierarchy := [], mergedFields := [] }

/-- An acyclic store containing `danglingEl`. -/
def demoDangStore : List DataElement := [tumorEl, danglingEl]

/-- Cycle element X with parent Y. -/
def xEl : DataElement :=
  { fqn := "demo.X", name := "X", namespaceName := "demo",
    parentFqn := some "demo.Y", fields := [], description := "",
    namespacePath := "", hierarchy := [], mergedFields := [] }

/-- Cycle element Y with parent X. -/
def yEl : DataElement :=
  { fqn := "demo.Y", name := "Y", namespaceName := "demo",
    parentFqn := some "demo.X", fields := [], description := "",
    namespacePath := "", hierarchy := [], mergedFields := [] }

/-- An element of the `demo` namespace with a dangling parent. -/
def cDangEl : DataElement :=
  { fqn := "demo.C", name := "C", namespaceName := "demo",
    parentFqn := some "demo.M", fields := [], description := "",
    namespacePath := "", hierarchy := [], mergedFields := [] }

/-- The two-element cycle store of spec section 8. -/
def cycStore : List DataElement := [xEl, yEl]

/-- A store with a cycle iterated before a dangling element. -/
def mixStore1 : List DataElement := [xEl, yEl, cDangEl]

/-- A store with a dangling element iterated before a cycle. -/
def mixStore2 : List DataElement := [cDangEl, xEl, yEl]

/-- The resolved form of `tumorEl` after `flatten`. -/
def tumorFlat : DataElement := { tumorEl with mergedFields := tumorEl.fields }

/-- The resolved form of `malignantEl` after `flatten`: hierarchy
`["onc.Tumor"]`, merged table with the re-declared `size` in root position
and the new `grade` appended. -/
def malignantFlat : DataElement :=
  { malignantEl with
      hierarchy := ["onc.Tumor"],
      mergedFields := [⟨"size", "BigQuantity", "1..1"⟩, ⟨"grade", "Code", "0..1"⟩] }

/-- The flattened demo store. -/
def demoFlat : List DataElement := [tumorFlat, malignantFlat]

/-- The resolved model of the demo input: loaded (namespacePath set) and
flattened elements plus the registered namespace. -/
def demoModel : Model :=
  { elements :=
      [{ tumorFlat with namespacePath := "onc" },
       { malignantFlat with namespacePath := "onc" }],
    namespaces := [{ name := "onc", description := "oncology", path := "onc",
                     elements := ["onc.Tumor", "onc.MalignantTumor"] }] }

/-- A compiled SHR object over the demo model with a stale output
directory. -/
def demoSHR : SHR := { outDirectory := "old", model := demoModel }

/-- Two namespace members sharing a display name, with the larger fqn
inserted first. -/
def elA : DataElement :=
  { fqn := "pkg.A", name := "Same", namespaceName := "pkg",
    parentFqn := none, fields := [], description := "",
    namespacePath := "pkg", hierarchy := [], mergedFields := [] }

/-- See `elA`: same display name, larger fqn. -/
def elB : DataElement :=
  { fqn := "pkg.B", name := "Same", namespaceName := "pkg",
    parentFqn := none, fields := [], description := "",
    namespacePath := "pkg", hierarchy := [], mergedFields := [] }

example : flatten demoStore =
    Except.ok
      [{ tumorEl with hierarchy := [],
                      mergedFields := tumorEl.fields },
       { malignantEl with
           hierarchy := ["onc.Tumor"],
           mergedFields :=
             [{ name := "size", typeRef := "BigQuantity", card := "1..1" },
              { name := "grade", typeRef := "Code", card := "0..1" }] }] := by
  rfl

example :
    (resolveModel demoCimcore).map (fun m => (listElements m).map (fun e => e.namespacePath)) =
      Except.ok ["onc", "onc"] := by rfl

example :
    (resolveModel demoCimcore).map (fun m => (listNamespaces m).map (fun n => n.elements)) =
      Except.ok [["onc.Tumor", "onc.MalignantTumor"]] := by rfl

-- Helper lemmas.

theorem deepClone_eq (e : DataElement) : deepClone e = e := by
  have hf : (fun f : ElementField => (⟨f.name, f.typeRef, f.card⟩ : ElementField)) = id := by
    funext f; rfl
  obtain ⟨f1, f2, f3, p, f5, f6, f7, f8, f9⟩ := e
  cases p <;> simp [deepClone, hf]

theorem lookupElement_fqn {store : List DataElement} {f : String} {e : DataElement}
    (h : lookupElement store f = some e) : e.fqn = f := by
  have := List.find?_some h
  simpa using this

theorem lookupElement_mem {store : List DataElement} {f : String} {e : DataElement}
    (h : lookupElement store f = some e) : e ∈ store :=
  List.mem_of_find?_eq_some h

theorem lookupElement_isSome_of_mem {store : List DataElement} {e : DataElement}
    (he : e ∈ store) : (lookupElement store e.fqn).isSome := by
  cases hl : lookupElement store e.fqn with
  | some _ => rfl
  | none =>
    rw [lookupElement, List.find?_eq_none] at hl
    exact absurd (by simp : (e.fqn = e.fqn : Bool)) (by simpa using hl e he)

theorem lookupElement_self {store : List DataElement}
    (hnd : (store.map (fun e => e.fqn)).Nodup) {e : DataElement} (he : e ∈ store) :
    lookupElement store e.fqn = some e := by
  induction store with
  | nil => cases he
  | cons x rest ih =>
    rcases List.mem_cons.mp he with rfl | hr
    · simp [lookupElement, List.find?_cons]
    · have hnd' := hnd
      rw [List.map_cons, List.nodup_cons] at hnd'
      have hne : ¬ (x.fqn = e.fqn) := by
        intro hx
        exact hnd'.1 (hx ▸ List.mem_map_of_mem (fun e => e.fqn) hr)
      simpa [lookupElement, List.find?_cons, hne] using ih hnd'.2 hr

theorem mapExcept_ok_forall₂ {f : α → Except ShrError β} :
    ∀ {l : List α} {l' : List β}, mapExcept f l = Except.ok l' →
      List.Forall₂ (fun a b => f a = Except.ok b) l l' := by
  intro l
  induction l with
  | nil =>
    intro l' h
    simp only [mapExcept, Except.ok.injEq] at h
    subst h; exact List.Forall₂.nil
  | cons a t ih =>
    intro l' h
    simp only [mapExcept] at h
    cases hfa : f a with
    | error e => rw [hfa] at h; cases h
    | ok b =>
      rw [hfa] at h
      cases hrest : mapExcept f t with
      | error e => rw [hrest] at h; cases h
      | ok bs =>
        rw [hrest] at h
        simp only [Except.ok.injEq] at h
        subst h
        exact List.Forall₂.cons hfa (ih hrest)

theorem forall₂_mapExcept_ok {f : α → Except ShrError β} :
    ∀ {l : List α} {l' : List β},
      List.Forall₂ (fun a b => f a = Except.ok b) l l' →
      mapExcept f l = Except.ok l' := by
  intro l l' h
  induction h with
  | nil => rfl
  | cons hab _ ih =>
    simp only [mapExcept]
    rw [hab, ih]

theorem mapExcept_error_mem {f : α → Except ShrError β} :
    ∀ {l : List α} {e : ShrError}, mapExcept f l = Except.error e →
      ∃ a ∈ l, f a = Except.error e := by
  intro l
  induction l with
  | nil => intro e h; cases h
  | cons a t ih =>
    intro e h
    simp only [mapExcept] at h
    cases hfa : f a with
    | error e' =>
      rw [hfa] at h
      cases h
      exact ⟨a, List.mem_cons_self a t, hfa⟩
    | ok b =>
      rw [hfa] at h
      cases hrest : mapExcept f t with
      | error e' =>
        rw [hrest] at h
        cases h
        obtain ⟨x, hx, hfx⟩ := ih hrest
        exact ⟨x, List.mem_cons_of_mem a hx, hfx⟩
      | ok bs => rw [hrest] at h; cases h

theorem mapExcept_error_of_mem {f : α → Except ShrError β} {l : List α} {a : α}
    {e : ShrError} (ha : a ∈ l) (hfa : f a = Except.error e) :
    ∃ e', mapExcept f l = Except.error e' := by
  induction l with
  | nil => cases ha
  | cons x t ih =>
    simp only [mapExcept]
    cases hfx : f x with
    | error e' => exact ⟨e', rfl⟩
    | ok b =>
      rcases List.mem_cons.mp ha with rfl | hr
      · rw [hfa] at hfx; cases hfx
      · obtain ⟨e', he'⟩ := ih hr
        rw [he']
        exact ⟨e', rfl⟩

theorem resolveChain_mono (store : List DataElement) :
    ∀ (fuel : Nat) {fuel' : Nat} {v v' : List String} {cur : DataElement}
      {h : List String},
      resolveChain store fuel v cur = Except.ok h → fuel ≤ fuel' →
      (∀ x ∈ v', x ∈ v) → resolveChain store fuel' v' cur = Except.ok h := by
  intro fuel
  induction fuel with
  | zero =>
    intro fuel' v v' cur h hok
    simp [resolveChain] at hok
  | succ n ih =>
    intro fuel' v v' cur h hok hle hsub
    obtain ⟨m, rfl⟩ : ∃ m, fuel' = m + 1 := ⟨fuel' - 1, by omega⟩
    simp only [resolveChain] at hok ⊢
    cases hpar : cur.parentFqn with
    | none => simp only [hpar] at hok ⊢; exact hok
    | some p =>
      simp only [hpar] at hok ⊢
      by_cases hv : p ∈ v
      · simp [hv] at hok
      · have hv' : p ∉ v' := fun hx => hv (hsub p hx)
        simp only [if_neg hv] at hok
        simp only [if_neg hv']
        cases hlook : lookupElement store p with
        | none => simp [hlook] at hok
        | some pe =>
          simp only [hlook] at hok ⊢
          cases hrec : resolveChain store n (p :: v) pe with
          | error err => simp [hrec] at hok
          | ok h₁ =>
            simp only [hrec] at hok
            have hm : n ≤ m := by omega
            have hsub' : ∀ x ∈ p :: v', x ∈ p :: v := by
              intro x hx
              rcases List.mem_cons.mp hx with rfl | hx'
              · exact List.mem_cons_self _ _
              · exact List.mem_cons_of_mem _ (hsub x hx')
            simp only [ih hrec hm hsub']
            exact hok

theorem resolveOk_fqn (s : List DataElement) (e : DataElement) :
    (resolveOk s e).fqn = e.fqn := by
  unfold resolveOk
  split <;> rfl

theorem resolveOk_parentFqn (s : List DataElement) (e : DataElement) :
    (resolveOk s e).parentFqn = e.parentFqn := by
  unfold resolveOk
  split <;> rfl

theorem resolveOk_fields (s : List DataElement) (e : DataElement) :
    (resolveOk s e).fields = e.fields := by
  unfold resolveOk
  split <;> rfl

theorem resolveElement_ok_eq {s : List DataElement} {e e' : DataElement}
    (h : resolveElement s e = Except.ok e') : e' = resolveOk s e := by
  unfold resolveElement at h
  unfold resolveOk
  cases hc : resolveChain s (s.length + 1) [e.fqn] e with
  | error err => rw [hc] at h; cases h
  | ok hh =>
    rw [hc] at h
    cases h
    rfl

theorem resolveElement_ok_of_chain {s : List DataElement} {e : DataElement}
    {hh : List String}
    (hc : resolveChain s (s.length + 1) [e.fqn] e = Except.ok hh) :
    resolveElement s e = Except.ok (resolveOk s e) := by
  unfold resolveElement resolveOk
  rw [hc]

theorem forall₂_resolve_map {s : List DataElement} :
    ∀ {l l' : List DataElement},
      List.Forall₂ (fun a b => resolveElement s a = Except.ok b) l l' →
      l' = l.map (resolveOk s) := by
  intro l l' hf
  induction hf with
  | nil => rfl
  | cons hab _ ih =>
    rw [List.map_cons, ← ih, resolveElement_ok_eq hab]

theorem forall₂_resolve_mem {s : List DataElement} :
    ∀ {l l' : List DataElement},
      List.Forall₂ (fun a b => resolveElement s a = Except.ok b) l l' →
      ∀ {e : DataElement}, e ∈ l → ∃ e', resolveElement s e = Except.ok e' := by
  intro l l' hf
  induction hf with
  | nil => intro e he; cases he
  | cons hab _ ih =>
    intro e he
    rcases List.mem_cons.mp he with rfl | hr
    · exact ⟨_, hab⟩
    · exact ih hr

theorem flatten_ok_eq_map {s s' : List DataElement}
    (h : flatten s = Except.ok s') : s' = s.map (resolveOk s) :=
  forall₂_resolve_map (mapExcept_ok_forall₂ h)

theorem flatten_ok_chain {s s' : List DataElement} (h : flatten s = Except.ok s')
    {e : DataElement} (he : e ∈ s) :
    ∃ hh, resolveChain s (s.length + 1) [e.fqn] e = Except.ok hh := by
  obtain ⟨e', he'⟩ := forall₂_resolve_mem (mapExcept_ok_forall₂ h) he
  unfold resolveElement at he'
  cases hc : resolveChain s (s.length + 1) [e.fqn] e with
  | error err => rw [hc] at he'; cases he'
  | ok hh => exact ⟨hh, rfl⟩

theorem lookupElement_map {s : List DataElement} (g : DataElement → DataElement)
    (hf : ∀ e, (g e).fqn = e.fqn) (p : String) :
    lookupElement (s.map g) p = (lookupElement s p).map g := by
  unfold lookupElement
  rw [List.find?_map]
  have : ((fun e => decide (e.fqn = p)) ∘ g) = (fun e => decide (e.fqn = p)) := by
    funext e
    simp [Function.comp, hf]
  rw [this]

theorem resolveChain_map {s : List DataElement} (g : DataElement → DataElement)
    (hfq : ∀ e, (g e).fqn = e.fqn) (hpar : ∀ e, (g e).parentFqn = e.parentFqn) :
    ∀ (fuel : Nat) (v : List String) (cur : DataElement),
      resolveChain (s.map g) fuel v (g cur) = resolveChain s fuel v cur := by
  intro fuel
  induction fuel with
  | zero => intro v cur; simp [resolveChain, hfq]
  | succ n ih =>
    intro v cur
    simp only [resolveChain, hpar, hfq]
    cases cur.parentFqn with
    | none => rfl
    | some p =>
      by_cases hv : p ∈ v
      · simp [hv]
      · simp only [if_neg hv]
        rw [lookupElement_map g hfq]
        cases hl : lookupElement s p with
        | none => simp [hl]
        | some pe =>
          simp only [hl, Option.map_some']
          rw [ih]

theorem mergedTable_map (g : DataElement → DataElement)
    (hfl : ∀ e, (g e).fields = e.fields) :
    ∀ chain : List DataElement, mergedTable (chain.map g) = mergedTable chain := by
  intro chain
  cases chain with
  | nil => rfl
  | cons r rest =>
    simp only [List.map_cons, mergedTable, List.foldl_map, hfl]

theorem rootToLeaf_map {s : List DataElement} (g : DataElement → DataElement)
    (hfq : ∀ e, (g e).fqn = e.fqn) (e : DataElement) (h : List String) :
    rootToLeaf (s.map g) (g e) h = (rootToLeaf s e h).map g := by
  have hfm : List.filterMap (lookupElement (s.map g)) h =
      List.map g (List.filterMap (lookupElement s) h) := by
    rw [List.map_filterMap]
    congr 1
    funext p
    rw [lookupElement_map g hfq]
  unfold rootToLeaf
  rw [hfm, List.map_reverse, List.map_cons]

theorem resolveChain_root {s : List DataElement} {n : Nat} {v : List String}
    {e : DataElement} (hp : e.parentFqn = none) :
    resolveChain s (n + 1) v e = Except.ok [] := by
  simp [resolveChain, hp]

theorem resolveChain_parent_ok {s : List DataElement} {n : Nat} {v : List String}
    {e : DataElement} {p : String} {h : List String} (hp : e.parentFqn = some p)
    (hok : resolveChain s (n + 1) v e = Except.ok h) :
    p ∉ v ∧ ∃ pe h₁, lookupElement s p = some pe ∧
      resolveChain s n (p :: v) pe = Except.ok h₁ ∧ h = p :: h₁ := by
  simp only [resolveChain, hp] at hok
  by_cases hv : p ∈ v
  · simp [hv] at hok
  · simp only [if_neg hv] at hok
    cases hl : lookupElement s p with
    | none => simp [hl] at hok
    | some pe =>
      simp only [hl] at hok
      cases hrec : resolveChain s n (p :: v) pe with
      | error err => simp [hrec] at hok
      | ok h₁ =>
        simp only [hrec] at hok
        cases hok
        exact ⟨hv, pe, h₁, rfl, hrec, rfl⟩

theorem resolveOk_eq_of_chain {s : List DataElement} {e : DataElement}
    {hh : List String}
    (hc : resolveChain s (s.length + 1) [e.fqn] e = Except.ok hh) :
    resolveOk s e =
      { e with hierarchy := hh,
               mergedFields := mergedTable (rootToLeaf s e hh) } := by
  unfold resolveOk
  rw [hc]

/-- C1: after a successful `flatten()`, a parentless element has an empty
hierarchy and a merged field table equal to its own fields, and an element
with parent `P` has hierarchy `[P]` followed by the hierarchy of `P` — the
ordered ancestor fqns, nearest parent first. -/
theorem claim_C1_hierarchy_structure (s s' : List DataElement)
    (h : flatten s = Except.ok s') :
    ∀ e' ∈ s',
      (e'.parentFqn = none → e'.hierarchy = [] ∧ e'.mergedFields = e'.fields) ∧
      (∀ p pe', e'.parentFqn = some p → lookupElement s' p = some pe' →
        e'.hierarchy = p :: pe'.hierarchy) := by
  have hmap := flatten_ok_eq_map h
  intro e' he'
  rw [hmap] at he'
  obtain ⟨e, he, rfl⟩ := List.mem_map.mp he'
  obtain ⟨hh, hc⟩ := flatten_ok_chain h he
  have hg := resolveOk_eq_of_chain hc
  constructor
  · intro hroot
    rw [hg] at hroot ⊢
    simp only at hroot
    rw [resolveChain_root hroot] at hc
    cases hc
    refine ⟨rfl, ?_⟩
    simp [rootToLeaf, mergedTable]
  · intro p pe' hpar hlook'
    rw [hg] at hpar
    simp only at hpar
    obtain ⟨hnv, pe, h₁, hl, hrec, rfl⟩ := resolveChain_parent_ok hpar hc
    have hpefqn : pe.fqn = p := lookupElement_fqn hl
    have hpe : pe ∈ s := lookupElement_mem hl
    obtain ⟨h₂, hc₂⟩ := flatten_ok_chain h hpe
    have hmono : resolveChain s (s.length + 1) [p] pe = Except.ok h₁ := by
      refine resolveChain_mono s s.length hrec (by omega) ?_
      intro x hx
      rcases List.mem_cons.mp hx with rfl | hx'
      · exact List.mem_cons_self _ _
      · cases hx'
    rw [hpefqn] at hc₂
    rw [hmono] at hc₂
    cases hc₂
    have hlook'' : lookupElement s' p = some (resolveOk s pe) := by
      rw [hmap, lookupElement_map (resolveOk s) (resolveOk_fqn s), hl]
      rfl
    rw [hlook''] at hlook'
    cases hlook'
    rw [hg, resolveOk_eq_of_chain (hpefqn ▸ hmono)]

/-- C3: `flatten()` is idempotent — if it succeeds, running it again on the
resolved store reproduces exactly the same store: identical hierarchy
lists and merged field tables, with no accumulation of entries. -/
theorem claim_C3_flatten_idempotent (s s' : List DataElement)
    (h : flatten s = Except.ok s') : flatten s' = Except.ok s' := by
  have hmap := flatten_ok_eq_map h
  have hlen : s'.length = s.length := by rw [hmap, List.length_map]
  apply forall₂_mapExcept_ok
  rw [List.forall₂_same]
  intro e' he'
  rw [hmap] at he' ⊢
  obtain ⟨e, he, rfl⟩ := List.mem_map.mp he'
  obtain ⟨hh, hc⟩ := flatten_ok_chain h he
  have hg := resolveOk_eq_of_chain hc
  have hchain' : resolveChain (s.map (resolveOk s)) (s.length + 1)
      [(resolveOk s e).fqn] (resolveOk s e) = Except.ok hh := by
    rw [resolveOk_fqn]
    rw [resolveChain_map (resolveOk s) (resolveOk_fqn s) (resolveOk_parentFqn s)]
    exact hc
  have hchain'' : resolveChain (s.map (resolveOk s)) ((s.map (resolveOk s)).length + 1)
      [(resolveOk s e).fqn] (resolveOk s e) = Except.ok hh := by
    rw [List.length_map]
    exact hchain'
  have hmerge : mergedTable (rootToLeaf (s.map (resolveOk s)) (resolveOk s e) hh) =
      mergedTable (rootToLeaf s e hh) := by
    rw [rootToLeaf_map (resolveOk s) (resolveOk_fqn s),
        mergedTable_map (resolveOk s) (resolveOk_fields s)]
  rw [resolveElement_ok_of_chain hchain'', resolveOk_eq_of_chain hchain'', hmerge, hg]

/-- Witness for C1: on the demo input, the hierarchy of
`onc.MalignantTumor` is `"onc.Tumor"` followed by the hierarchy of
`onc.Tumor`. -/
theorem claim_C1_witness :
    malignantFlat.hierarchy = "onc.Tumor" :: tumorFlat.hierarchy :=
  (claim_C1_hierarchy_structure demoStore demoFlat (by rfl) malignantFlat
      (by decide)).2 "onc.Tumor" tumorFlat (by rfl) (by rfl)

/-- Witness for C3: flattening the already flattened demo store reproduces
it exactly. -/
theorem claim_C3_witness : flatten demoFlat = Except.ok demoFlat :=
  claim_C3_flatten_idempotent demoStore demoFlat (by rfl)

-- Field-name structure of the merged table.

theorem fieldNames_applyField (t : List ElementField) (f : ElementField) :
    fieldNames (applyField t f) = dedupStep (fieldNames t) f.name := by
  have hmem : (t.any (fun g => g.name = f.name)) = true ↔ f.name ∈ fieldNames t := by
    rw [List.any_eq_true]
    constructor
    · rintro ⟨g, hg, hgf⟩
      have hgf' : g.name = f.name := by simpa using hgf
      exact hgf' ▸ List.mem_map_of_mem _ hg
    · intro hx
      obtain ⟨g, hg, hgf⟩ := List.mem_map.mp hx
      exact ⟨g, hg, by simpa using hgf⟩
  unfold applyField dedupStep
  by_cases hc : f.name ∈ fieldNames t
  · rw [if_pos (hmem.mpr hc), if_pos hc]
    unfold fieldNames
    rw [List.map_map]
    apply List.map_congr_left
    intro g _
    by_cases hg : g.name = f.name
    · simp [Function.comp, hg]
    · simp [Function.comp, hg]
  · rw [if_neg (fun hx => hc (hmem.mp hx)), if_neg hc]
    simp [fieldNames]

theorem fieldNames_applyFields (fs : List ElementField) :
    ∀ t, fieldNames (applyFields t fs) =
      (fieldNames fs).foldl dedupStep (fieldNames t) := by
  induction fs with
  | nil => intro t; rfl
  | cons f rest ih =>
    intro t
    show fieldNames (applyFields (applyField t f) rest) = _
    rw [ih, fieldNames_applyField]
    rfl

theorem fieldNames_foldl_apply (rest : List DataElement) :
    ∀ t, fieldNames (rest.foldl (fun t e => applyFields t e.fields) t) =
      (((rest.map (fun e => e.fields)).flatten).map (fun f => f.name)).foldl dedupStep
        (fieldNames t) := by
  induction rest with
  | nil => intro t; rfl
  | cons e rest ih =>
    intro t
    show fieldNames (rest.foldl _ (applyFields t e.fields)) = _
    rw [ih, fieldNames_applyFields]
    rw [List.map_cons, List.flatten_cons, List.map_append, List.foldl_append]
    rfl

theorem foldl_dedupStep_nodup_id (ns : List String) :
    ∀ acc, (acc ++ ns).Nodup → ns.foldl dedupStep acc = acc ++ ns := by
  induction ns with
  | nil => intro acc _; simp
  | cons n rest ih =>
    intro acc hnd
    have hn : n ∉ acc := by
      intro hx
      rw [List.nodup_append] at hnd
      exact hnd.2.2 hx (List.mem_cons_self n rest)
    show rest.foldl dedupStep (dedupStep acc n) = _
    rw [show dedupStep acc n = acc ++ [n] from by simp [dedupStep, hn]]
    have hnd' : ((acc ++ [n]) ++ rest).Nodup := by
      simpa [List.append_assoc] using hnd
    rw [ih (acc ++ [n]) hnd']
    simp

theorem mem_foldl_dedupStep (ns : List String) :
    ∀ acc x, x ∈ ns.foldl dedupStep acc ↔ x ∈ acc ∨ x ∈ ns := by
  induction ns with
  | nil => intro acc x; simp
  | cons n rest ih =>
    intro acc x
    show x ∈ rest.foldl dedupStep (dedupStep acc n) ↔ _
    rw [ih]
    unfold dedupStep
    by_cases hn : n ∈ acc
    · rw [if_pos hn]
      constructor
      · rintro (hx | hx)
        · exact Or.inl hx
        · exact Or.inr (List.mem_cons_of_mem n hx)
      · rintro (hx | hx)
        · exact Or.inl hx
        · rcases List.mem_cons.mp hx with rfl | hx'
          · exact Or.inl hn
          · exact Or.inr hx'
    · rw [if_neg hn]
      simp [List.mem_append, List.mem_cons]
      tauto

theorem nodup_foldl_dedupStep (ns : List String) :
    ∀ acc, acc.Nodup → (ns.foldl dedupStep acc).Nodup := by
  induction ns with
  | nil => intro acc h; exact h
  | cons n rest ih =>
    intro acc h
    show (rest.foldl dedupStep (dedupStep acc n)).Nodup
    apply ih
    unfold dedupStep
    by_cases hn : n ∈ acc
    · rw [if_pos hn]; exact h
    · rw [if_neg hn]
      simp [List.nodup_append, h, hn]

-- Value structure of the merged table.

theorem findByName_cons (f : ElementField) (t : List ElementField) (n : String) :
    findByName n (f :: t) = if f.name = n then some f else findByName n t := by
  by_cases hf : f.name = n
  · rw [if_pos hf]
    exact List.find?_cons_of_pos _ (by simpa using hf)
  · rw [if_neg hf]
    exact List.find?_cons_of_neg _ (by simpa using hf)

theorem findByName_append (t₁ t₂ : List ElementField) (n : String) :
    findByName n (t₁ ++ t₂) =
      match findByName n t₁ with
      | some x => some x
      | none => findByName n t₂ := by
  induction t₁ with
  | nil => rfl
  | cons f t ih =>
    rw [List.cons_append, findByName_cons, findByName_cons]
    by_cases hf : f.name = n
    · rw [if_pos hf, if_pos hf]
    · rw [if_neg hf, if_neg hf, ih]

theorem lastDecl_append (a b : List ElementField) (n : String) :
    lastDecl n (a ++ b) =
      match lastDecl n b with
      | some x => some x
      | none => lastDecl n a := by
  unfold lastDecl
  rw [List.reverse_append]
  exact findByName_append b.reverse a.reverse n

theorem lastDecl_cons (f : ElementField) (rest : List ElementField) (n : String) :
    lastDecl n (f :: rest) =
      match lastDecl n rest with
      | some g => some g
      | none => if f.name = n then some f else none := by
  have h1 : lastDecl n (f :: rest) =
      match lastDecl n rest with
      | some x => some x
      | none => lastDecl n [f] := by
    have h : f :: rest = [f] ++ rest := rfl
    rw [h, lastDecl_append]
  have h2 : lastDecl n [f] = if f.name = n then some f else none := by
    unfold lastDecl
    rw [List.reverse_singleton]
    by_cases hf : f.name = n
    · rw [if_pos hf]
      exact List.find?_cons_of_pos _ (by simpa using hf)
    · rw [if_neg hf]
      rw [List.find?_cons_of_neg _ (by simpa using hf)]
      rfl
  rw [h1, h2]

theorem findByName_replace_hit (f : ElementField) (n : String) (hn : f.name = n) :
    ∀ t : List ElementField, f.name ∈ fieldNames t →
      findByName n (t.map (fun g => if g.name = f.name then f else g)) = some f := by
  intro t
  induction t with
  | nil => intro hx; cases hx
  | cons g t ih =>
    intro hx
    rw [List.map_cons]
    by_cases hg : g.name = f.name
    · rw [if_pos hg, findByName_cons, if_pos hn]
    · rw [if_neg hg, findByName_cons]
      have hgn : ¬ (g.name = n) := fun hc => hg (hc.trans hn.symm)
      rw [if_neg hgn]
      apply ih
      rcases List.mem_cons.mp hx with he | hr
      · exact absurd he.symm hg
      · exact hr

theorem findByName_replace_miss (f : ElementField) (n : String) (hn : ¬ (f.name = n)) :
    ∀ t : List ElementField,
      findByName n (t.map (fun g => if g.name = f.name then f else g)) =
        findByName n t := by
  intro t
  induction t with
  | nil => rfl
  | cons g t ih =>
    rw [List.map_cons]
    by_cases hg : g.name = f.name
    · rw [if_pos hg, findByName_cons, findByName_cons, if_neg hn]
      have hgn : ¬ (g.name = n) := fun hc => hn (hg ▸ hc)
      rw [if_neg hgn, ih]
    · rw [if_neg hg, findByName_cons, findByName_cons]
      by_cases hgn : g.name = n
      · rw [if_pos hgn, if_pos hgn]
      · rw [if_neg hgn, if_neg hgn, ih]

theorem findByName_applyField (t : List ElementField) (f : ElementField) (n : String) :
    findByName n (applyField t f) = if f.name = n then some f else findByName n t := by
  unfold applyField
  by_cases hany : (t.any (fun g => g.name = f.name)) = true
  · rw [if_pos hany]
    have hmem : f.name ∈ fieldNames t := by
      obtain ⟨g, hg, hgf⟩ := List.any_eq_true.mp hany
      have hgf' : g.name = f.name := by simpa using hgf
      exact hgf' ▸ List.mem_map_of_mem _ hg
    by_cases hn : f.name = n
    · rw [if_pos hn, findByName_replace_hit f n hn t hmem]
    · rw [if_neg hn, findByName_replace_miss f n hn t]
  · rw [if_neg hany, findByName_append]
    have hnone : ∀ g ∈ t, ¬ (g.name = f.name) := by
      intro g hg hc
      exact hany (List.any_eq_true.mpr ⟨g, hg, by simpa using hc⟩)
    by_cases hn : f.name = n
    · rw [if_pos hn]
      have ht : findByName n t = none := by
        rw [findByName, List.find?_eq_none]
        intro g hg
        simp only [decide_eq_true_eq]
        exact fun hc => hnone g hg (hc.trans hn.symm)
      rw [ht]
      show findByName n [f] = some f
      rw [findByName_cons, if_pos hn]
    · rw [if_neg hn]
      cases hfind : findByName n t with
      | some x => rfl
      | none =>
        show findByName n [f] = none
        rw [findByName_cons, if_neg hn]
        rfl

theorem findByName_applyFields (fs : List ElementField) :
    ∀ (t : List ElementField) (n : String),
      findByName n (applyFields t fs) =
        match lastDecl n fs with
        | some f => some f
        | none => findByName n t := by
  induction fs with
  | nil => intro t n; rfl
  | cons f rest ih =>
    intro t n
    show findByName n (applyFields (applyField t f) rest) = _
    rw [ih, lastDecl_cons]
    cases lastDecl n rest with
    | some g => rfl
    | none =>
      rw [findByName_applyField]
      by_cases hf : f.name = n
      · rw [if_pos hf, if_pos hf]
      · rw [if_neg hf, if_neg hf]

theorem findByName_foldl_apply (rest : List DataElement) :
    ∀ (t : List ElementField) (n : String),
      findByName n (rest.foldl (fun t e => applyFields t e.fields) t) =
        match lastDecl n ((rest.map (fun e => e.fields)).flatten) with
        | some f => some f
        | none => findByName n t := by
  induction rest with
  | nil => intro t n; rfl
  | cons e rest ih =>
    intro t n
    show findByName n (rest.foldl _ (applyFields t e.fields)) = _
    rw [ih, List.map_cons, List.flatten_cons, lastDecl_append]
    cases lastDecl n ((rest.map (fun e => e.fields)).flatten) with
    | some g => rfl
    | none =>
      rw [findByName_applyFields]

theorem findByName_eq_lastDecl_of_nodup (n : String) :
    ∀ t : List ElementField, (fieldNames t).Nodup →
      findByName n t = lastDecl n t := by
  intro t
  induction t with
  | nil => intro _; rfl
  | cons f rest ih =>
    intro hnd
    have hnd' := hnd
    rw [fieldNames, List.map_cons, List.nodup_cons] at hnd'
    rw [findByName_cons, lastDecl_cons]
    by_cases hf : f.name = n
    · rw [if_pos hf]
      have hrest : lastDecl n rest = none := by
        unfold lastDecl
        rw [List.find?_eq_none]
        intro g hg
        simp only [decide_eq_true_eq]
        intro hc
        apply hnd'.1
        rw [hf, ← hc]
        exact List.mem_map_of_mem _ (List.mem_reverse.mp hg)
      rw [hrest, if_pos hf]
    · rw [if_neg hf, ih hnd'.2]
      cases lastDecl n rest with
      | some g => rfl
      | none => rw [if_neg hf]

theorem filter_name_of_nodup (t : List ElementField) (n : String)
    (hnd : (fieldNames t).Nodup) (hmem : n ∈ fieldNames t) :
    (t.filter (fun f => f.name = n)).length = 1 := by
  induction t with
  | nil => cases hmem
  | cons f rest ih =>
    have hnd' : f.name ∉ fieldNames rest ∧ (fieldNames rest).Nodup := by
      simpa [fieldNames] using hnd
    rw [List.filter_cons]
    by_cases hf : f.name = n
    · rw [if_pos (by simpa using hf)]
      have hrest : rest.filter (fun f => f.name = n) = [] := by
        rw [List.filter_eq_nil_iff]
        intro g hg
        simp only [decide_eq_true_eq]
        intro hc
        exact hnd'.1 (by rw [hf, ← hc]; exact List.mem_map_of_mem _ hg)
      rw [hrest]
      rfl
    · rw [if_neg (by simpa using hf)]
      apply ih hnd'.2
      rcases List.mem_cons.mp hmem with he | hr
      · exact absurd (he ▸ hf) (fun hx => hx rfl)
      · exact hr

theorem rootToLeaf_subset {s : List DataElement} {e : DataElement}
    {hh : List String} (he : e ∈ s) :
    ∀ x ∈ rootToLeaf s e hh, x ∈ s := by
  intro x hx
  rw [rootToLeaf, List.mem_reverse] at hx
  rcases List.mem_cons.mp hx with rfl | hx'
  · exact he
  · obtain ⟨p, _, hlp⟩ := List.mem_filterMap.mp hx'
    exact lookupElement_mem hlp

/-- C2: after a successful `flatten()`, for every declared field name the
merged table of an element holds exactly one entry for that name, that
entry is the most specific declaration (the last one in root-to-leaf
declaration order), and the name order of the merged table is the
first-declaration order of the chain — an overridden field keeps the
position of its first declaration instead of being re-appended. -/
theorem claim_C2_shadowing (s s' : List DataElement)
    (h : flatten s = Except.ok s')
    (hnd : ∀ e ∈ s, (fieldNames e.fields).Nodup) :
    ∀ e' ∈ s', ∀ n ∈ fieldNames (chainDecls s' e'),
      ((e'.mergedFields.filter (fun f => f.name = n)).length = 1) ∧
      findByName n e'.mergedFields = lastDecl n (chainDecls s' e') ∧
      fieldNames e'.mergedFields = dedupKeepFirst (fieldNames (chainDecls s' e')) := by
  have hmap := flatten_ok_eq_map h
  intro e' he' n hn
  rw [hmap] at he'
  obtain ⟨e, he, rfl⟩ := List.mem_map.mp he'
  obtain ⟨hh, hc⟩ := flatten_ok_chain h he
  have hg := resolveOk_eq_of_chain hc
  have hhier : (resolveOk s e).hierarchy = hh := by rw [hg]
  have hmerged : (resolveOk s e).mergedFields = mergedTable (rootToLeaf s e hh) := by
    rw [hg]
  have hdecls : chainDecls s' (resolveOk s e) =
      ((rootToLeaf s e hh).map (fun x => x.fields)).flatten := by
    unfold chainDecls
    rw [hhier, hmap, rootToLeaf_map (resolveOk s) (resolveOk_fqn s), List.map_map]
    congr 1
    congr 1
    funext x
    exact resolveOk_fields s x
  obtain ⟨r, rest, hchain⟩ : ∃ r rest, rootToLeaf s e hh = r :: rest := by
    cases hx : rootToLeaf s e hh with
    | nil =>
      exfalso
      unfold rootToLeaf at hx
      cases List.reverse_eq_nil_iff.mp hx
    | cons r rest => exact ⟨r, rest, rfl⟩
  have hrs : r ∈ s :=
    rootToLeaf_subset he r (by rw [hchain]; exact List.mem_cons_self r rest)
  have hndr : (fieldNames r.fields).Nodup := hnd r hrs
  rw [hdecls, hchain] at hn
  rw [hmerged, hdecls, hchain]
  have hnamesplit :
      fieldNames (((r :: rest).map (fun x => x.fields)).flatten) =
        fieldNames r.fields ++ fieldNames ((rest.map (fun x => x.fields)).flatten) := by
    rw [List.map_cons, List.flatten_cons]
    unfold fieldNames
    rw [List.map_append]
  have h3 : fieldNames (mergedTable (r :: rest)) =
      dedupKeepFirst (fieldNames (((r :: rest).map (fun x => x.fields)).flatten)) := by
    show fieldNames (rest.foldl (fun t e => applyFields t e.fields) r.fields) = _
    rw [fieldNames_foldl_apply, hnamesplit]
    unfold dedupKeepFirst
    rw [List.foldl_append,
        foldl_dedupStep_nodup_id (fieldNames r.fields) [] (by simpa using hndr),
        List.nil_append]
    rfl
  have h2 : findByName n (mergedTable (r :: rest)) =
      lastDecl n (((r :: rest).map (fun x => x.fields)).flatten) := by
    show findByName n (rest.foldl (fun t e => applyFields t e.fields) r.fields) = _
    rw [findByName_foldl_apply, List.map_cons, List.flatten_cons, lastDecl_append]
    cases lastDecl n ((rest.map (fun x => x.fields)).flatten) with
    | some g => rfl
    | none => exact findByName_eq_lastDecl_of_nodup n r.fields hndr
  have hnodupMerged : (fieldNames (mergedTable (r :: rest))).Nodup := by
    rw [h3]
    exact nodup_foldl_dedupStep _ [] List.nodup_nil
  have hmemMerged : n ∈ fieldNames (mergedTable (r :: rest)) := by
    rw [h3]
    unfold dedupKeepFirst
    exact (mem_foldl_dedupStep _ [] n).mpr (Or.inr hn)
  exact ⟨filter_name_of_nodup _ n hnodupMerged hmemMerged, h2, h3⟩

/-- Witness for C2 at the demo input: the re-declared field `size` of
`onc.MalignantTumor` appears exactly once in the merged table, carries the
most specific declaration, and the merged name order is the
first-declaration order of the chain. -/
theorem claim_C2_witness :
    ((malignantFlat.mergedFields.filter (fun f => f.name = "size")).length = 1) ∧
    findByName "size" malignantFlat.mergedFields =
      lastDecl "size" (chainDecls demoFlat malignantFlat) ∧
    fieldNames malignantFlat.mergedFields =
      dedupKeepFirst (fieldNames (chainDecls demoFlat malignantFlat)) :=
  claim_C2_shadowing demoStore demoFlat (by rfl) (by decide) malignantFlat
    (by decide) "size" (by decide)

-- Duplicate-fqn rejection (claim C4).

theorem loadElement_dup {st : List DataElement × List NamespaceInfo}
    {de : DataElement} (hmem : de.fqn ∈ st.1.map (fun e => e.fqn)) :
    loadElement st de = Except.error (ShrError.duplicateFqn de.fqn) := by
  have hany : (st.1.any (fun e => e.fqn = de.fqn)) = true := by
    obtain ⟨e, he, hef⟩ := List.mem_map.mp hmem
    exact List.any_eq_true.mpr ⟨e, he, by simpa using hef⟩
  simp only [loadElement, deepClone_eq, hany]
  rfl

theorem loadElement_fresh {st : List DataElement × List NamespaceInfo}
    {de : DataElement} (hmem : de.fqn ∉ st.1.map (fun e => e.fqn)) :
    loadElement st de = Except.ok
      (st.1 ++ [{ de with namespacePath := (getNamespace st.2 de.namespaceName).2.path }],
       addNsElement (getNamespace st.2 de.namespaceName).1 de.namespaceName de.fqn) := by
  have hany : (st.1.any (fun e => e.fqn = de.fqn)) = false := by
    rw [Bool.eq_false_iff]
    intro hx
    obtain ⟨e, he, hef⟩ := List.any_eq_true.mp hx
    exact hmem (by
      have hef' : e.fqn = de.fqn := by simpa using hef
      exact hef' ▸ List.mem_map_of_mem _ he)
  simp only [loadElement, deepClone_eq, hany]
  rfl

theorem loadAll_dup :
    ∀ (des : List DataElement) (store : List DataElement) (reg : List NamespaceInfo),
      (store.map (fun e => e.fqn)).Nodup →
      ¬ ((store.map (fun e => e.fqn)) ++ (des.map (fun e => e.fqn))).Nodup →
      ∃ f, loadAll (store, reg) des = Except.error (ShrError.duplicateFqn f) ∧
        2 ≤ ((store.map (fun e => e.fqn)) ++ (des.map (fun e => e.fqn))).count f := by
  intro des
  induction des with
  | nil =>
    intro store reg hnd hdup
    exact absurd (by simpa using hnd) hdup
  | cons de rest ih =>
    intro store reg hnd hdup
    by_cases hmem : de.fqn ∈ store.map (fun e => e.fqn)
    · refine ⟨de.fqn, ?_, ?_⟩
      · show (match loadElement (store, reg) de with
          | Except.error e => Except.error e
          | Except.ok st' => loadAll st' rest) = _
        rw [loadElement_dup hmem]
      · rw [List.count_append]
        have h1 : 1 ≤ (store.map (fun e => e.fqn)).count de.fqn :=
          List.count_pos_iff.mpr hmem
        have h2 : 1 ≤ ((de :: rest).map (fun e => e.fqn)).count de.fqn := by
          rw [List.map_cons]
          exact List.count_pos_iff.mpr (List.mem_cons_self _ _)
        omega
    · have hfresh := @loadElement_fresh (store, reg) de hmem
      have hfqn : ({ de with namespacePath :=
          (getNamespace reg de.namespaceName).2.path } : DataElement).fqn = de.fqn := rfl
      have hstep :
          ((store ++ [{ de with namespacePath :=
              (getNamespace reg de.namespaceName).2.path }]).map (fun e : DataElement => e.fqn))
            = store.map (fun e => e.fqn) ++ [de.fqn] := by
        rw [List.map_append]
        rfl
      have hnd' : ((store ++ [{ de with namespacePath :=
          (getNamespace reg de.namespaceName).2.path }]).map (fun e : DataElement => e.fqn)).Nodup := by
        rw [hstep]
        simp [List.nodup_append, hnd, hmem]
      have hassoc :
          (store.map (fun e => e.fqn) ++ [de.fqn]) ++ rest.map (fun e => e.fqn)
            = store.map (fun e => e.fqn) ++ ((de :: rest).map (fun e => e.fqn)) := by
        rw [List.map_cons, List.append_assoc]
        rfl
      have hdup' : ¬ (((store ++ [{ de with namespacePath :=
          (getNamespace reg de.namespaceName).2.path }]).map (fun e : DataElement => e.fqn)) ++
            rest.map (fun e => e.fqn)).Nodup := by
        rw [hstep, hassoc]
        exact hdup
      obtain ⟨f, herr, hcount⟩ := ih _ _ hnd' hdup'
      refine ⟨f, ?_, ?_⟩
      · show (match loadElement (store, reg) de with
          | Except.error e => Except.error e
          | Except.ok st' => loadAll st' rest) = _
        rw [hfresh]
        exact herr
      · rw [hstep, hassoc] at hcount
        exact hcount

/-- C4: an input whose `dataElements` sequence repeats an fqn makes the run
fail with `DuplicateFqnError` naming a repeated fqn — later entries are
rejected rather than silently overwriting, and no model is produced. -/
theorem claim_C4_duplicate_fqn (c : Cimcore)
    (hdup : ¬ (c.dataElements.map (fun e => e.fqn)).Nodup) :
    ∃ f, resolveModel c = Except.error (ShrError.duplicateFqn f) ∧
      2 ≤ (c.dataElements.map (fun e => e.fqn)).count f := by
  obtain ⟨f, herr, hcount⟩ :=
    loadAll_dup c.dataElements []
      (c.namespaces.foldl (fun reg nd => setNsDescription reg nd.1 nd.2) [])
      List.nodup_nil (by simpa using hdup)
  refine ⟨f, ?_, by simpa using hcount⟩
  show (match readFiles c with
    | Except.error e => Except.error e
    | Except.ok st =>
      match flatten st.1 with
      | Except.error e => Except.error e
      | Except.ok store' => Except.ok ({ elements := store', namespaces := st.2 } : Model)) = _
  show (match loadAll ([],
      (c.namespaces.foldl (fun reg nd => setNsDescription reg nd.1 nd.2) []))
      c.dataElements with
    | Except.error e => Except.error e
    | Except.ok st =>
      match flatten st.1 with
      | Except.error e => Except.error e
      | Except.ok store' => Except.ok ({ elements := store', namespaces := st.2 } : Model)) = _
  rw [herr]

/-- Witness for C4 at the duplicate demo input (`onc.Tumor` twice). -/
theorem claim_C4_witness :
    ∃ f, resolveModel demoDup = Except.error (ShrError.duplicateFqn f) ∧
      2 ≤ (demoDup.dataElements.map (fun e => e.fqn)).count f :=
  claim_C4_duplicate_fqn demoDup (by decide)

-- Error classification of the chain walk (claims C5 and C6).

theorem resolveChain_dangling {s : List DataElement} {n : Nat} {v : List String}
    {e : DataElement} {p : String} (hp : e.parentFqn = some p) (hv : p ∉ v)
    (hl : lookupElement s p = none) :
    resolveChain s (n + 1) v e = Except.error (ShrError.unresolvedParent e.fqn) := by
  simp [resolveChain, hp, hv, hl]

theorem resolveChain_error_cases (s : List DataElement) :
    ∀ (fuel : Nat) (cur : DataElement), cur ∈ s → ∀ (visited : List String)
      (err : ShrError),
      resolveChain s fuel visited cur = Except.error err →
      (∃ f, err = ShrError.cyclicHierarchy f) ∨
      (∃ E' p', E' ∈ s ∧ err = ShrError.unresolvedParent E'.fqn ∧
        E'.parentFqn = some p' ∧ lookupElement s p' = none) := by
  intro fuel
  induction fuel with
  | zero =>
    intro cur _ visited err herr
    simp only [resolveChain] at herr
    cases herr
    exact Or.inl ⟨cur.fqn, rfl⟩
  | succ n ih =>
    intro cur hcur visited err herr
    simp only [resolveChain] at herr
    cases hp : cur.parentFqn with
    | none =>
      simp only [hp] at herr
      cases herr
    | some p =>
      simp only [hp] at herr
      by_cases hv : p ∈ visited
      · rw [if_pos hv] at herr
        cases herr
        exact Or.inl ⟨p, rfl⟩
      · rw [if_neg hv] at herr
        cases hl : lookupElement s p with
        | none =>
          simp only [hl] at herr
          cases herr
          exact Or.inr ⟨cur, p, hcur, rfl, hp, hl⟩
        | some pe =>
          simp only [hl] at herr
          cases hrec : resolveChain s n (p :: visited) pe with
          | ok h₁ => simp [hrec] at herr
          | error err' =>
            simp only [hrec] at herr
            cases herr
            exact ih pe (lookupElement_mem hl) (p :: visited) _ hrec

theorem rankOkB_spec {s : List DataElement} {rank : String → Nat}
    (h : rankOkB s rank = true) :
    ∀ e ∈ s, ∀ p pe, e.parentFqn = some p → lookupElement s p = some pe →
      rank pe.fqn < rank e.fqn := by
  intro e he p pe hp hl
  have hx := List.all_eq_true.mp h e he
  simp only [hp] at hx
  simp only [hl] at hx
  simpa using hx

theorem noDanglingB_spec {s : List DataElement} (h : noDanglingB s = true) :
    ∀ e ∈ s, ∀ p, e.parentFqn = some p → (lookupElement s p).isSome := by
  intro e he p hp
  have hx := List.all_eq_true.mp h e he
  simp only [hp] at hx
  exact hx

theorem resolveChain_no_cyclic (s : List DataElement) (rank : String → Nat)
    (hrank : rankOkB s rank = true) :
    ∀ (fuel : Nat) (cur : DataElement), cur ∈ s → ∀ (visited : List String),
      (∀ v ∈ visited, rank cur.fqn ≤ rank v) →
      (∀ v ∈ visited, ∃ x ∈ s, x.fqn = v) →
      rank cur.fqn < fuel →
      ∀ f, resolveChain s fuel visited cur ≠ Except.error (ShrError.cyclicHierarchy f) := by
  intro fuel
  induction fuel with
  | zero => intro cur _ visited _ _ hlt; omega
  | succ n ih =>
    intro cur hcur visited hvis hvismem hlt f hcon
    simp only [resolveChain] at hcon
    cases hp : cur.parentFqn with
    | none =>
      simp only [hp] at hcon
      cases hcon
    | some p =>
      simp only [hp] at hcon
      cases hl : lookupElement s p with
      | none =>
        have hpv : p ∉ visited := by
          intro hx
          obtain ⟨x, hxs, hxf⟩ := hvismem p hx
          have := lookupElement_isSome_of_mem hxs
          rw [hxf, hl] at this
          cases this
        rw [if_neg hpv] at hcon
        simp only [hl] at hcon
        cases hcon
      | some pe =>
        have hlt' : rank pe.fqn < rank cur.fqn := rankOkB_spec hrank cur hcur p pe hp hl
        have hpefqn : pe.fqn = p := lookupElement_fqn hl
        rw [hpefqn] at hlt'
        have hpv : p ∉ visited := by
          intro hx
          have := hvis p hx
          omega
        rw [if_neg hpv] at hcon
        simp only [hl] at hcon
        cases hrec : resolveChain s n (p :: visited) pe with
        | ok h₁ => simp [hrec] at hcon
        | error err' =>
          simp only [hrec] at hcon
          cases hcon
          refine ih pe (lookupElement_mem hl) (p :: visited) ?_ ?_ (by rw [hpefqn]; omega) f hrec
          · intro v hv
            rcases List.mem_cons.mp hv with rfl | hv'
            · rw [hpefqn]
            · have := hvis v hv'
              rw [hpefqn]
              omega
          · intro v hv
            rcases List.mem_cons.mp hv with rfl | hv'
            · exact ⟨pe, lookupElement_mem hl, hpefqn⟩
            · exact hvismem v hv'

theorem resolveElement_error_iff {s : List DataElement} {e : DataElement}
    {err : ShrError} :
    resolveElement s e = Except.error err ↔
      resolveChain s (s.length + 1) [e.fqn] e = Except.error err := by
  unfold resolveElement
  cases hc : resolveChain s (s.length + 1) [e.fqn] e with
  | error e' => simp
  | ok h => simp

/-- C5 (amended): in a loaded store whose resolvable parent references
admit a strictly decreasing rank (the parent-chain graph is acyclic) and
that contains an element with a dangling parent reference, `flatten()`
fails with `UnresolvedParentError` reporting the fqn of an offending
element — a model is never produced. -/
theorem claim_C5_unresolved_parent (s : List DataElement) (rank : String → Nat)
    (hrank : rankOkB s rank = true)
    (hbound : ∀ e ∈ s, rank e.fqn < s.length + 1)
    (E : DataElement) (hE : E ∈ s) (p : String) (hp : E.parentFqn = some p)
    (hdang : lookupElement s p = none) :
    ∃ E' p', E' ∈ s ∧ E'.parentFqn = some p' ∧ lookupElement s p' = none ∧
      flatten s = Except.error (ShrError.unresolvedParent E'.fqn) := by
  have hpne : p ∉ [E.fqn] := by
    intro hx
    rcases List.mem_cons.mp hx with rfl | hx'
    · have := lookupElement_isSome_of_mem hE
      rw [hdang] at this
      cases this
    · cases hx'
  have hEchain : resolveChain s (s.length + 1) [E.fqn] E =
      Except.error (ShrError.unresolvedParent E.fqn) :=
    resolveChain_dangling hp hpne hdang
  have hEelem : resolveElement s E = Except.error (ShrError.unresolvedParent E.fqn) :=
    resolveElement_error_iff.mpr hEchain
  obtain ⟨err, herr⟩ := mapExcept_error_of_mem hE hEelem
  obtain ⟨a, ha, haerr⟩ := mapExcept_error_mem herr
  have hachain := resolveElement_error_iff.mp haerr
  rcases resolveChain_error_cases s (s.length + 1) a ha [a.fqn] err hachain with
    ⟨f, rfl⟩ | ⟨E', p', hE', rfl, hp', hdang'⟩
  · exact absurd hachain
      (resolveChain_no_cyclic s rank hrank (s.length + 1) a ha [a.fqn]
        (by intro v hv; rcases List.mem_cons.mp hv with rfl | hv'
            · exact Nat.le_refl _
            · cases hv')
        (by intro v hv; rcases List.mem_cons.mp hv with rfl | hv'
            · exact ⟨a, ha, rfl⟩
            · cases hv')
        (hbound a ha) f)
  · exact ⟨E', p', hE', hp', hdang', herr⟩

/-- Witness for C5: an acyclic demo store with a dangling element. -/
theorem claim_C5_witness :
    ∃ E' p', E' ∈ demoDangStore ∧ E'.parentFqn = some p' ∧
      lookupElement demoDangStore p' = none ∧
      flatten demoDangStore = Except.error (ShrError.unresolvedParent E'.fqn) :=
  claim_C5_unresolved_parent demoDangStore
    (fun f => if f = "onc.Bad" then 1 else 0) (by decide) (by decide)
    danglingEl (by decide) "onc.Missing" (by rfl) (by rfl)

/-- Counterexample for C5 as frozen: `mixStore1` contains the dangling
element `demo.C`, yet `flatten` fails with `CyclicHierarchyError` from the
cycle iterated first, not with `UnresolvedParentError`. -/
theorem claim_C5_counterexample :
    (cDangEl ∈ mixStore1 ∧ cDangEl.parentFqn = some "demo.M" ∧
      lookupElement mixStore1 "demo.M" = none) ∧
    flatten mixStore1 = Except.error (ShrError.cyclicHierarchy "demo.X") ∧
    ∀ f, flatten mixStore1 ≠ Except.error (ShrError.unresolvedParent f) := by
  refine ⟨⟨by decide, by rfl, by rfl⟩, by rfl, ?_⟩
  intro f h
  have hval : flatten mixStore1 = Except.error (ShrError.cyclicHierarchy "demo.X") := by
    rfl
  rw [hval] at h
  simp at h

theorem parentClosedB_spec {s : List DataElement} {c : List String}
    (h : parentClosedB s c = true) :
    c ≠ [] ∧ ∀ f ∈ c, ∃ e g, lookupElement s f = some e ∧
      e.parentFqn = some g ∧ g ∈ c := by
  unfold parentClosedB at h
  rw [Bool.and_eq_true] at h
  obtain ⟨h1, h2⟩ := h
  refine ⟨by simpa using h1, ?_⟩
  intro f hf
  have hx := List.all_eq_true.mp h2 f hf
  cases hl : lookupElement s f with
  | none =>
    simp only [hl] at hx
    cases hx
  | some e =>
    simp only [hl] at hx
    cases hpp : e.parentFqn with
    | none =>
      simp only [hpp] at hx
      cases hx
    | some g =>
      simp only [hpp] at hx
      exact ⟨e, g, rfl, hpp, by simpa using hx⟩

theorem resolveChain_closed_not_ok (s : List DataElement) (c : List String)
    (hcl : ∀ f ∈ c, ∃ e g, lookupElement s f = some e ∧
      e.parentFqn = some g ∧ g ∈ c) :
    ∀ (fuel : Nat) (f : String), f ∈ c → ∀ (e : DataElement),
      lookupElement s f = some e → ∀ (visited : List String) (h : List String),
      resolveChain s fuel visited e ≠ Except.ok h := by
  intro fuel
  induction fuel with
  | zero =>
    intro f hf e hl visited h hok
    simp [resolveChain] at hok
  | succ n ih =>
    intro f hf e hl visited h hok
    obtain ⟨e', g, hl', hpar, hg⟩ := hcl f hf
    rw [hl] at hl'
    injection hl' with he'
    subst he'
    simp only [resolveChain, hpar] at hok
    by_cases hv : g ∈ visited
    · rw [if_pos hv] at hok; cases hok
    · rw [if_neg hv] at hok
      obtain ⟨ge, g2, hgl, _, _⟩ := hcl g hg
      simp only [hgl] at hok
      cases hrec : resolveChain s n (g :: visited) ge with
      | error err => simp [hrec] at hok
      | ok h₁ => exact ih g hg ge hgl (g :: visited) h₁ hrec

/-- C6 (amended): in a loaded store with no dangling parent references,
if the parent-chain graph contains a cycle (a nonempty fqn set closed
under the parent step), `flatten()` terminates and fails with
`CyclicHierarchyError` instead of recursing forever. -/
theorem claim_C6_cyclic (s : List DataElement) (c : List String)
    (hcyc : parentClosedB s c = true) (hnodang : noDanglingB s = true) :
    ∃ f, flatten s = Except.error (ShrError.cyclicHierarchy f) := by
  obtain ⟨hne, hcl⟩ := parentClosedB_spec hcyc
  obtain ⟨f₀, hf₀⟩ : ∃ f₀, f₀ ∈ c := by
    cases c with
    | nil => exact absurd rfl hne
    | cons a t => exact ⟨a, List.mem_cons_self a t⟩
  obtain ⟨e₀, g₀, hl₀, hpar₀, hg₀⟩ := hcl f₀ hf₀
  have he₀ : e₀ ∈ s := lookupElement_mem hl₀
  have hfail : ∃ err, resolveElement s e₀ = Except.error err := by
    cases hres : resolveElement s e₀ with
    | error err => exact ⟨err, rfl⟩
    | ok e' =>
      exfalso
      unfold resolveElement at hres
      cases hc0 : resolveChain s (s.length + 1) [e₀.fqn] e₀ with
      | error err => rw [hc0] at hres; cases hres
      | ok hh =>
        exact resolveChain_closed_not_ok s c hcl (s.length + 1) f₀ hf₀ e₀ hl₀
          [e₀.fqn] hh hc0
  obtain ⟨err₀, herr₀⟩ := hfail
  obtain ⟨err, herr⟩ := mapExcept_error_of_mem he₀ herr₀
  obtain ⟨a, ha, haerr⟩ := mapExcept_error_mem herr
  have hachain := resolveElement_error_iff.mp haerr
  rcases resolveChain_error_cases s (s.length + 1) a ha [a.fqn] err hachain with
    ⟨f, rfl⟩ | ⟨E', p', hE', rfl, hp', hdang'⟩
  · exact ⟨f, herr⟩
  · exfalso
    have hsome := noDanglingB_spec hnodang E' hE' p' hp'
    rw [hdang'] at hsome
    cases hsome

/-- Witness for C6 at the two-cycle demo store (X parent Y, Y parent X). -/
theorem claim_C6_witness :
    ∃ f, flatten cycStore = Except.error (ShrError.cyclicHierarchy f) :=
  claim_C6_cyclic cycStore ["demo.X", "demo.Y"] (by decide) (by decide)

/-- Counterexample for C6 as frozen: `mixStore2` contains the two-cycle
X, Y, yet `flatten` fails with `UnresolvedParentError` from the dangling
element iterated first, not with `CyclicHierarchyError`. -/
theorem claim_C6_counterexample :
    parentClosedB mixStore2 ["demo.X", "demo.Y"] = true ∧
    flatten mixStore2 = Except.error (ShrError.unresolvedParent "demo.C") ∧
    ∀ f, flatten mixStore2 ≠ Except.error (ShrError.cyclicHierarchy f) := by
  refine ⟨by decide, by rfl, ?_⟩
  intro f h
  have hval : flatten mixStore2 =
      Except.error (ShrError.unresolvedParent "demo.C") := by rfl
  rw [hval] at h
  simp at h

-- Deterministic listing order (claim C8).

theorem loadAll_ok_fqns :
    ∀ (des : List DataElement) (store : List DataElement)
      (reg : List NamespaceInfo) (stp : List DataElement × List NamespaceInfo),
      loadAll (store, reg) des = Except.ok stp →
      stp.1.map (fun e => e.fqn) =
        store.map (fun e => e.fqn) ++ des.map (fun e => e.fqn) := by
  intro des
  induction des with
  | nil =>
    intro store reg stp h
    simp only [loadAll] at h
    cases h
    simp
  | cons de rest ih =>
    intro store reg stp h
    simp only [loadAll] at h
    by_cases hmem : de.fqn ∈ store.map (fun e => e.fqn)
    · rw [loadElement_dup hmem] at h
      cases h
    · rw [@loadElement_fresh (store, reg) de hmem] at h
      have := ih _ _ _ h
      rw [this, List.map_append]
      simp [List.append_assoc]

theorem flatten_ok_fqns {s s' : List DataElement} (h : flatten s = Except.ok s') :
    s'.map (fun e => e.fqn) = s.map (fun e => e.fqn) := by
  rw [flatten_ok_eq_map h, List.map_map]
  apply List.map_congr_left
  intro e _
  exact resolveOk_fqn s e

/-- C8: listing order is deterministic — two resolution runs over the same
input yield identical `list()` orders for both the Element Store and the
Namespace Registry, and the element order is the fixed insertion order of
the input `dataElements` sequence. -/
theorem claim_C8_deterministic_order (c : Cimcore) (m₁ m₂ : Model)
    (h₁ : resolveModel c = Except.ok m₁) (h₂ : resolveModel c = Except.ok m₂) :
    listNamespaces m₁ = listNamespaces m₂ ∧ listElements m₁ = listElements m₂ ∧
      (listElements m₁).map (fun e => e.fqn) =
        c.dataElements.map (fun e => e.fqn) := by
  have hm : m₁ = m₂ := by
    rw [h₁] at h₂
    cases h₂
    rfl
  refine ⟨by rw [hm], by rw [hm], ?_⟩
  unfold resolveModel at h₁
  cases hrf : readFiles c with
  | error e => rw [hrf] at h₁; cases h₁
  | ok st =>
    rw [hrf] at h₁
    cases hfl : flatten st.1 with
    | error e =>
      simp only [hfl] at h₁
      cases h₁
    | ok store' =>
      simp only [hfl] at h₁
      cases h₁
      show store'.map (fun e => e.fqn) = _
      rw [flatten_ok_fqns hfl]
      have hld : loadAll ([],
          (c.namespaces.foldl (fun reg nd => setNsDescription reg nd.1 nd.2) []))
          c.dataElements = Except.ok st := hrf
      have := loadAll_ok_fqns c.dataElements [] _ st hld
      simpa using this

/-- Witness for C8 at the demo input. -/
theorem claim_C8_witness :
    listNamespaces demoModel = listNamespaces demoModel ∧
    listElements demoModel = listElements demoModel ∧
    (listElements demoModel).map (fun e => e.fqn) =
      demoCimcore.dataElements.map (fun e => e.fqn) :=
  claim_C8_deterministic_order demoCimcore demoModel demoModel (by rfl) (by rfl)

-- Member sort for package pages (claim C9).

theorem charListLt_irrefl : ∀ as : List Char, charListLt as as = false := by
  intro as
  induction as with
  | nil => rfl
  | cons a as ih =>
    simp only [charListLt]
    rw [if_neg (lt_irrefl a.toNat), if_neg (lt_irrefl a.toNat)]
    exact ih

theorem charListLt_asymm :
    ∀ as bs : List Char, charListLt as bs = true → charListLt bs as = false := by
  intro as
  induction as with
  | nil =>
    intro bs h
    cases bs with
    | nil => cases h
    | cons b bs => rfl
  | cons a as ih =>
    intro bs h
    cases bs with
    | nil => cases h
    | cons b bs =>
      simp only [charListLt] at h ⊢
      by_cases hab : a.toNat < b.toNat
      · rw [if_neg (by omega : ¬ b.toNat < a.toNat), if_pos hab]
      · rw [if_neg hab] at h
        by_cases hba : b.toNat < a.toNat
        · rw [if_pos hba] at h; cases h
        · rw [if_neg hba] at h
          rw [if_neg hba, if_neg hab]
          exact ih bs h

theorem charListLt_le_trans :
    ∀ as bs cs : List Char, charListLt bs as = false → charListLt cs bs = false →
      charListLt cs as = false := by
  intro as
  induction as with
  | nil =>
    intro bs cs h1 h2
    cases cs with
    | nil => rfl
    | cons c cs => rfl
  | cons a as ih =>
    intro bs cs h1 h2
    cases bs with
    | nil => cases h1
    | cons b bs =>
      cases cs with
      | nil => cases h2
      | cons c cs =>
        simp only [charListLt] at h1 h2 ⊢
        by_cases hba : b.toNat < a.toNat
        · rw [if_pos hba] at h1; cases h1
        · rw [if_neg hba] at h1
          by_cases hcb : c.toNat < b.toNat
          · rw [if_pos hcb] at h2; cases h2
          · rw [if_neg hcb] at h2
            have hca : ¬ c.toNat < a.toNat := by omega
            rw [if_neg hca]
            by_cases hac : a.toNat < c.toNat
            · rw [if_pos hac]
            · rw [if_neg hac]
              have hab : ¬ a.toNat < b.toNat := by omega
              have hbc : ¬ b.toNat < c.toNat := by omega
              rw [if_neg hab] at h1
              rw [if_neg hbc] at h2
              exact ih bs cs h1 h2

theorem mem_insertByName {e x : DataElement} :
    ∀ l : List DataElement, x ∈ insertByName e l ↔ x = e ∨ x ∈ l := by
  intro l
  induction l with
  | nil => simp [insertByName]
  | cons y l ih =>
    by_cases hlt : strLtB (displayName y) (displayName e) = true
    · rw [insertByName, if_pos hlt, List.mem_cons, List.mem_cons, ih]
      tauto
    · rw [insertByName, if_neg hlt, List.mem_cons]

theorem insertByName_sorted (e : DataElement) :
    ∀ l : List DataElement,
      List.Pairwise (fun a b => nameLeB a b = true) l →
      List.Pairwise (fun a b => nameLeB a b = true) (insertByName e l) := by
  intro l
  induction l with
  | nil => intro _; simp [insertByName]
  | cons y l ih =>
    intro hp
    rw [List.pairwise_cons] at hp
    by_cases hlt : strLtB (displayName y) (displayName e) = true
    · rw [insertByName, if_pos hlt]
      rw [List.pairwise_cons]
      constructor
      · intro z hz
        rcases (mem_insertByName l).mp hz with rfl | hz'
        · have ha : strLtB (displayName z) (displayName y) = false :=
            charListLt_asymm _ _ hlt
          show (!(strLtB (displayName z) (displayName y))) = true
          rw [ha]
          rfl
        · exact hp.1 z hz'
      · exact ih hp.2
    · rw [insertByName, if_neg hlt]
      have hyE : strLtB (displayName y) (displayName e) = false :=
        Bool.eq_false_iff.mpr hlt
      rw [List.pairwise_cons]
      constructor
      · intro z hz
        rcases List.mem_cons.mp hz with rfl | hz'
        · show (!(strLtB (displayName z) (displayName e))) = true
          rw [hyE]
          rfl
        · have h1 := hp.1 z hz'
          have h2 : strLtB (displayName z) (displayName y) = false := by
            cases hb : strLtB (displayName z) (displayName y) with
            | false => rfl
            | true =>
              exfalso
              rw [nameLeB, hb] at h1
              cases h1
          have h3 : strLtB (displayName z) (displayName e) = false :=
            charListLt_le_trans _ _ _ hyE h2
          show (!(strLtB (displayName z) (displayName e))) = true
          rw [h3]
          rfl
      · rw [List.pairwise_cons]
        exact hp

theorem sortMembers_sorted (l : List DataElement) :
    List.Pairwise (fun a b => nameLeB a b = true) (sortMembers l) := by
  induction l with
  | nil => exact List.Pairwise.nil
  | cons e l ih => exact insertByName_sorted e (sortMembers l) ih

theorem insertByName_filter (e : DataElement) (n : String) :
    ∀ l : List DataElement,
      (insertByName e l).filter (fun x => x.name = n) =
        if e.name = n then e :: l.filter (fun x => x.name = n)
        else l.filter (fun x => x.name = n) := by
  intro l
  induction l with
  | nil =>
    by_cases he : e.name = n
    · simp [insertByName, List.filter_cons, he]
    · simp [insertByName, List.filter_cons, he]
  | cons y l ih =>
    by_cases hlt : strLtB (displayName y) (displayName e) = true
    · rw [insertByName, if_pos hlt]
      by_cases he : e.name = n
      · have hy : ¬ (y.name = n) := by
          intro hy
          have hkey : displayName y = displayName e := by
            show y.name = e.name
            rw [hy, he]
          have hirr : strLtB (displayName e) (displayName e) = false :=
            charListLt_irrefl _
          rw [hkey, hirr] at hlt
          cases hlt
        simp [List.filter_cons, hy, ih, he]
      · by_cases hy : y.name = n
        · simp [List.filter_cons, hy, ih, he]
        · simp [List.filter_cons, hy, ih, he]
    · rw [insertByName, if_neg hlt]
      by_cases he : e.name = n
      · simp [List.filter_cons, he]
      · simp [List.filter_cons, he]

theorem sortMembers_filter (n : String) :
    ∀ l : List DataElement,
      (sortMembers l).filter (fun x => x.name = n) =
        l.filter (fun x => x.name = n) := by
  intro l
  induction l with
  | nil => rfl
  | cons e l ih =>
    show (insertByName e (sortMembers l)).filter _ = _
    rw [insertByName_filter, List.filter_cons]
    by_cases he : e.name = n
    · simp [he, ih]
    · simp [he, ih]

theorem insertByName_perm (e : DataElement) :
    ∀ l : List DataElement, (insertByName e l).Perm (e :: l) := by
  intro l
  induction l with
  | nil => exact List.Perm.refl _
  | cons y l ih =>
    by_cases hlt : strLtB (displayName y) (displayName e) = true
    · rw [insertByName, if_pos hlt]
      exact List.Perm.trans (List.Perm.cons y ih) (List.Perm.swap e y l)
    · rw [insertByName, if_neg hlt]

theorem sortMembers_perm (l : List DataElement) : (sortMembers l).Perm l := by
  induction l with
  | nil => exact List.Perm.refl _
  | cons e l ih =>
    exact List.Perm.trans (insertByName_perm e (sortMembers l)) (List.Perm.cons e ih)

/-- C9 (amended): the member sort used by `buildPackageFiles`
(`namespace.elements.sort()`, `export.js` line 132) orders the members by
display name (code-point string order) and is stable — members with equal
display names keep their member-list insertion order (every per-name
subsequence is untouched), and the result is a permutation of the member
list.  Ties are NOT broken by fqn. -/
theorem claim_C9_member_sort (l : List DataElement) :
    List.Pairwise (fun a b => nameLeB a b = true) (sortMembers l) ∧
    (∀ n, (sortMembers l).filter (fun x => x.name = n) =
      l.filter (fun x => x.name = n)) ∧
    (sortMembers l).Perm l :=
  ⟨sortMembers_sorted l, fun n => sortMembers_filter n l, sortMembers_perm l⟩

/-- Counterexample for C9 as frozen: two members share the display name
`Same`; the member with the larger fqn was inserted first and stays first
after sorting — the tie is kept in insertion order, not broken by fqn. -/
theorem claim_C9_counterexample :
    elB.name = elA.name ∧ strLtB elA.fqn elB.fqn = true ∧
    sortMembers [elB, elA] = [elB, elA] ∧
    ¬ sortMembers [elB, elA] = [elA, elB] := by
  refine ⟨rfl, by decide, by decide, by decide⟩

-- Defensive copy through the heap model (claim C7).

theorem heapGet_append (h t : ElementHeap) (a : Nat) :
    heapGet (h ++ t) a =
      match heapGet h a with
      | some v => some v
      | none => heapGet t a := by
  induction h with
  | nil => simp [heapGet]
  | cons c h ih =>
    by_cases hc : c.1 = a
    · simp [heapGet, List.find?_cons, hc]
    · have hdec : (decide (c.1 = a)) = false := by simpa using hc
      simp only [heapGet, List.cons_append, List.find?_cons, hdec] at ih ⊢
      exact ih

theorem heapMax_le_foldl :
    ∀ (h : ElementHeap) (acc : Nat), acc ≤ h.foldl (fun m c => max m c.1) acc := by
  intro h
  induction h with
  | nil => intro acc; exact Nat.le_refl acc
  | cons c t ih =>
    intro acc
    exact Nat.le_trans (Nat.le_max_left acc c.1) (ih (max acc c.1))

theorem heapMax_mem_le :
    ∀ (h : ElementHeap) (acc : Nat) (x : Nat × DataElement), x ∈ h →
      x.1 ≤ h.foldl (fun m c => max m c.1) acc := by
  intro h
  induction h with
  | nil => intro acc x hx; cases hx
  | cons c t ih =>
    intro acc x hx
    rcases List.mem_cons.mp hx with rfl | hx'
    · exact Nat.le_trans (Nat.le_max_right acc x.1) (heapMax_le_foldl t (max acc x.1))
    · exact ih (max acc c.1) x hx'

theorem heapGet_le_heapMax {h : ElementHeap} {a : Nat}
    (hs : (heapGet h a).isSome = true) : a ≤ heapMax h := by
  unfold heapGet at hs
  cases hf : List.find? (fun c => c.1 = a) h with
  | none => rw [hf] at hs; cases hs
  | some x =>
    have hx : x ∈ h := List.mem_of_find?_eq_some hf
    have hxa : x.1 = a := by simpa using List.find?_some hf
    rw [← hxa]
    exact heapMax_mem_le h 0 x hx

theorem heapMax_append_le (h t : ElementHeap) : heapMax h ≤ heapMax (h ++ t) := by
  unfold heapMax
  rw [List.foldl_append]
  exact heapMax_le_foldl t _

theorem heapGet_set_ne {h : ElementHeap} {a b : Nat} {v : DataElement}
    (hne : ¬ (b = a)) : heapGet (heapSet h a v) b = heapGet h b := by
  induction h with
  | nil => rfl
  | cons c t ih =>
    unfold heapSet at ih ⊢
    rw [List.map_cons]
    by_cases hc : c.1 = a
    · rw [if_pos hc]
      unfold heapGet
      rw [List.find?_cons_of_neg _ (by
            simp only [decide_eq_true_eq]
            intro hx
            exact hne hx.symm),
          List.find?_cons_of_neg _ (by
            simp only [decide_eq_true_eq]
            intro hx
            exact hne (by rw [← hx, hc]))]
      exact ih
    · rw [if_neg hc]
      unfold heapGet
      by_cases hcb : c.1 = b
      · rw [List.find?_cons_of_pos _ (by simpa using hcb),
            List.find?_cons_of_pos _ (by simpa using hcb)]
      · rw [List.find?_cons_of_neg _ (by simpa using hcb),
            List.find?_cons_of_neg _ (by simpa using hcb)]
        exact ih

theorem forall₂_mem_right {R : α → β → Prop} :
    ∀ {l₁ : List α} {l₂ : List β}, List.Forall₂ R l₁ l₂ → ∀ {b : β}, b ∈ l₂ →
      ∃ a ∈ l₁, R a b := by
  intro l₁ l₂ hf
  induction hf with
  | nil => intro b hb; cases hb
  | cons hab htail ih =>
    intro b hb
    rcases List.mem_cons.mp hb with rfl | hb'
    · exact ⟨_, List.mem_cons_self _ _, hab⟩
    · obtain ⟨a, ha, hR⟩ := ih hb'
      exact ⟨a, List.mem_cons_of_mem _ ha, hR⟩

theorem forall₂_imp_mem {R S : α → β → Prop} {Q : α → Prop} :
    ∀ {l₁ : List α} {l₂ : List β}, List.Forall₂ R l₁ l₂ → (∀ a ∈ l₁, Q a) →
      (∀ a b, Q a → R a b → S a b) → List.Forall₂ S l₁ l₂ := by
  intro l₁ l₂ hf hq himp
  induction hf with
  | nil => exact List.Forall₂.nil
  | cons hab htail ih =>
    exact List.Forall₂.cons (himp _ _ (hq _ (List.mem_cons_self _ _)) hab)
      (ih (fun a ha => hq a (List.mem_cons_of_mem _ ha)))

theorem loadFromHeap_spec :
    ∀ (addrs : List Nat) (h : ElementHeap),
      (∀ a ∈ addrs, (heapGet h a).isSome = true) →
      (∃ ext : ElementHeap, (loadFromHeap h addrs).1 = h ++ ext) ∧
      List.Forall₂ (fun a na => heapMax h < na ∧
        heapGet (loadFromHeap h addrs).1 na = heapGet h a)
        addrs (loadFromHeap h addrs).2 := by
  intro addrs
  induction addrs with
  | nil =>
    intro h _
    exact ⟨⟨[], (List.append_nil h).symm⟩, List.Forall₂.nil⟩
  | cons a rest ih =>
    intro h hv
    obtain ⟨v, hGet⟩ := Option.isSome_iff_exists.mp (hv a (List.mem_cons_self a rest))
    have hunfold : loadFromHeap h (a :: rest) =
        ((loadFromHeap (h ++ [(heapMax h + 1, deepClone v)]) rest).1,
         (heapMax h + 1) :: (loadFromHeap (h ++ [(heapMax h + 1, deepClone v)]) rest).2) := by
      simp only [loadFromHeap, hGet, heapAlloc]
    have hv' : ∀ a' ∈ rest,
        (heapGet (h ++ [(heapMax h + 1, deepClone v)]) a').isSome = true := by
      intro a' ha'
      obtain ⟨w, hw⟩ := Option.isSome_iff_exists.mp (hv a' (List.mem_cons_of_mem a ha'))
      rw [heapGet_append, hw]
      rfl
    obtain ⟨⟨ext', hext'⟩, hfa'⟩ := ih (h ++ [(heapMax h + 1, deepClone v)]) hv'
    have hfreshNone : heapGet h (heapMax h + 1) = none := by
      cases hg : heapGet h (heapMax h + 1) with
      | none => rfl
      | some w =>
        have := heapGet_le_heapMax (by rw [hg]; rfl)
        omega
    have hcell : heapGet (h ++ [(heapMax h + 1, deepClone v)]) (heapMax h + 1) =
        some v := by
      rw [heapGet_append, hfreshNone]
      show heapGet [(heapMax h + 1, deepClone v)] (heapMax h + 1) = some v
      unfold heapGet
      rw [List.find?_cons_of_pos _ (by simp)]
      simp [deepClone_eq]
    constructor
    · refine ⟨(heapMax h + 1, deepClone v) :: ext', ?_⟩
      rw [hunfold]
      show (loadFromHeap (h ++ [(heapMax h + 1, deepClone v)]) rest).1 = _
      rw [hext', List.append_assoc]
      rfl
    · rw [hunfold]
      refine List.Forall₂.cons ⟨by omega, ?_⟩ ?_
      · show heapGet (loadFromHeap (h ++ [(heapMax h + 1, deepClone v)]) rest).1
          (heapMax h + 1) = heapGet h a
        rw [hext', heapGet_append, hcell, hGet]
      · refine forall₂_imp_mem hfa' (fun x hx => hv x (List.mem_cons_of_mem a hx))
          ?_
        intro a' na hq hR
        refine ⟨?_, ?_⟩
        · have := heapMax_append_le h [(heapMax h + 1, deepClone v)]
          have := hR.1
          omega
        · rw [hR.2, heapGet_append]
          obtain ⟨w, hw⟩ := Option.isSome_iff_exists.mp hq
          rw [hw]

theorem applyMutations_frame :
    ∀ (ms : List (Nat × (DataElement → DataElement))) (h : ElementHeap) (a : Nat),
      (∀ x ∈ ms, ¬ (x.1 = a)) →
      heapGet (applyMutations h ms) a = heapGet h a := by
  intro ms
  induction ms with
  | nil => intro h a _; rfl
  | cons m ms ih =>
    intro h a hne
    simp only [applyMutations]
    cases hm : heapGet h m.1 with
    | none => exact ih h a (fun x hx => hne x (List.mem_cons_of_mem _ hx))
    | some v =>
      rw [ih _ a (fun x hx => hne x (List.mem_cons_of_mem _ hx))]
      exact heapGet_set_ne (fun hx => hne m (List.mem_cons_self _ _) hx.symm)

/-- C7: the loader stores a deep copy of each caller entry — the stored
object lives at a freshly allocated address disjoint from every caller
address, its value at insertion time equals the caller value, and any
later sequence of computed-field mutations applied at store addresses
leaves every caller cell exactly as it was. -/
theorem claim_C7_deep_copy (h₀ : ElementHeap) (addrs : List Nat)
    (hvalid : ∀ a ∈ addrs, (heapGet h₀ a).isSome = true) :
    (∀ na ∈ (loadFromHeap h₀ addrs).2, na ∉ addrs) ∧
    List.Forall₂ (fun a na => heapGet (loadFromHeap h₀ addrs).1 na = heapGet h₀ a)
      addrs (loadFromHeap h₀ addrs).2 ∧
    (∀ ms : List (Nat × (DataElement → DataElement)),
      (∀ x ∈ ms, x.1 ∈ (loadFromHeap h₀ addrs).2) →
      ∀ a ∈ addrs,
        heapGet (applyMutations (loadFromHeap h₀ addrs).1 ms) a = heapGet h₀ a) := by
  obtain ⟨⟨ext, hext⟩, hfa⟩ := loadFromHeap_spec addrs h₀ hvalid
  have hbig : ∀ na ∈ (loadFromHeap h₀ addrs).2, heapMax h₀ < na := by
    intro na hna
    obtain ⟨a, _, hR⟩ := forall₂_mem_right hfa hna
    exact hR.1
  have hlow : ∀ a ∈ addrs, a ≤ heapMax h₀ :=
    fun a ha => heapGet_le_heapMax (hvalid a ha)
  refine ⟨?_, ?_, ?_⟩
  · intro na hna hmem
    have h1 := hbig na hna
    have h2 := hlow na hmem
    omega
  · exact List.Forall₂.imp (fun a b hab => hab.2) hfa
  · intro ms hms a ha
    rw [applyMutations_frame ms _ a (fun x hx => by
      have h1 := hbig x.1 (hms x hx)
      have h2 := hlow a ha
      omega)]
    rw [hext, heapGet_append]
    cases hga : heapGet h₀ a with
    | none =>
      have := hvalid a ha
      rw [hga] at this
      cases this
    | some w => rfl

/-- Witness for C7: a one-cell caller heap holding `tumorEl` at address 1. -/
theorem claim_C7_witness :
    (∀ na ∈ (loadFromHeap [(1, tumorEl)] [1]).2, na ∉ [1]) ∧
    List.Forall₂
      (fun a na => heapGet (loadFromHeap [(1, tumorEl)] [1]).1 na =
        heapGet [(1, tumorEl)] a)
      [1] (loadFromHeap [(1, tumorEl)] [1]).2 ∧
    (∀ ms : List (Nat × (DataElement → DataElement)),
      (∀ x ∈ ms, x.1 ∈ (loadFromHeap [(1, tumorEl)] [1]).2) →
      ∀ a ∈ [1],
        heapGet (applyMutations (loadFromHeap [(1, tumorEl)] [1]).1 ms) a =
          heapGet [(1, tumorEl)] a) :=
  claim_C7_deep_copy [(1, tumorEl)] [1] (by decide)

-- Output directory handling of exportToPath (claim C10).

/-- C10: `exportToPath` first overwrites `outDirectory` of the compiled
model with the given path and generates every output under that path; the
`outPath` originally passed to `compileJavadoc` has no influence on where
`exportToPath` writes. -/
theorem claim_C10_exportToPath (shr : SHR) (p : String) :
    (exportToPath shr p).1.outDirectory = p ∧
    (∀ q, exportToPath { shr with outDirectory := q } p = exportToPath shr p) ∧
    (∀ c p₁ p₂, (compileJavadoc c p₁).map (fun m => exportToPath m p) =
      (compileJavadoc c p₂).map (fun m => exportToPath m p)) ∧
    (∀ f ∈ (exportToPath shr p).2, f = p ∨ ∃ r, f = p ++ "/" ++ r) := by
  refine ⟨rfl, fun q => rfl, ?_, ?_⟩
  · intro c p₁ p₂
    unfold compileJavadoc
    cases resolveModel c with
    | error e => rfl
    | ok m => rfl
  · intro f hf
    have hf' : f ∈ generateHTML { shr with outDirectory := p } := hf
    clear hf
    rename' hf' => hf
    unfold generateHTML at hf
    simp only [List.mem_append, List.mem_map, List.mem_cons,
      List.not_mem_nil, or_false] at hf
    rcases hf with ((((hf | ⟨ns, _, rfl⟩) | ⟨ns, _, rfl⟩) | ⟨ns, _, rfl⟩) |
        (hf | hf | hf)) | ⟨e, _, rfl⟩
    · exact Or.inl hf
    · exact Or.inr ⟨ns.path, rfl⟩
    · exact Or.inr ⟨_, rfl⟩
    · exact Or.inr ⟨_, rfl⟩
    · exact Or.inr ⟨"overview-frame.html", hf⟩
    · exact Or.inr ⟨"overview-summary.html", hf⟩
    · exact Or.inr ⟨"allclasses-frame.html", hf⟩
    · exact Or.inr ⟨_, rfl⟩

/-- Witness for C10 at the demo SHR object: the stale directory is
overwritten and the namespace directory lands under the new path. -/
theorem claim_C10_witness :
    (exportToPath demoSHR "out").1.outDirectory = "out" ∧
    ("out/onc" = "out" ∨ ∃ r, "out/onc" = "out" ++ "/" ++ r) :=
  ⟨(claim_C10_exportToPath demoSHR "out").1,
   (claim_C10_exportToPath demoSHR "out").2.2.2 "out/onc" (by decide)⟩
